import Mathlib

/-
Verification of the callgraph-based compilation driver (gcc/cgraphunit.c).

The development shallowly embeds the data model of the callgraph unit driver:
a function node carries the lifecycle flags and the local/global substructures
of struct cgraph_node, the intern table is a total map from declaration ids to
nodes together with the list of ids present in the graph, and the worklists
are FIFO lists of ids.  Functions of cgraphunit.c are translated one by one;
gcc_assert is modelled by an Except String error, external collaborators
(the inliner oracle, the back-end expand hook, the front-end analyze_expr
hook, the postorder primitive of cgraph.c) are explicit parameters, and the
handful of cgraph.c / tree.c primitives that the sources do not contain
(interning, mark_reachable, mark_needed, remove_node, walk_tree) are modelled
from the specification, as their doc comments state.
-/

namespace Cgraph

/-- Call edge of the callgraph: caller and callee declaration ids and the
inline_failed reason string (none means the edge has been inlined). -/
structure cgraph_edge where
  caller : Nat
  callee : Nat
  inline_failed : Option String
deriving DecidableEq, Repr

/-- Local (per-function, intraprocedural) substructure of struct cgraph_node;
the record default is the all-zero state that memset produces. -/
structure cgraph_local_info where
  inlinable : Bool := false
  disregard_inline_limits : Bool := false
  self_insns : Nat := 0
  externally_visible : Bool := false
  redefined_extern_inline : Bool := false
  finalized : Bool := false
deriving DecidableEq, Repr

/-- Global (interprocedural) substructure of struct cgraph_node; the record
default is the all-zero state that memset produces. -/
structure cgraph_global_info where
  inlined_to : Option Nat := none
  insns : Nat := 0
deriving DecidableEq, Repr

/-- Function node of the callgraph.  Besides the cgraph flags it carries the
declaration-level tree flags the driver reads (DECL_SAVED_TREE presence,
DECL_EXTERNAL, TREE_ASM_WRITTEN, DECL_INLINE, DECL_STRUCT_FUNCTION presence,
whether DECL_INITIAL is the error mark) and, for the clone chain that lives in
cgraph.c, the list of the inlined_to fields of the chained clones. -/
structure cgraph_node where
  local_info : cgraph_local_info := {}
  global_info : cgraph_global_info := {}
  rtl_info : Nat := 0
  analyzed : Bool := false
  reachable : Bool := false
  needed : Bool := false
  output : Bool := false
  lowered : Bool := false
  alias_flag : Bool := false
  next_needed : Bool := false
  callers : List cgraph_edge := []
  callees : List cgraph_edge := []
  saved_tree : Bool := false
  decl_external : Bool := false
  asm_written : Bool := false
  decl_inline : Bool := false
  decl_initial_error : Bool := false
  struct_function : Bool := false
  clone_inlined_to : List (Option Nat) := []
deriving DecidableEq, Repr

/-- Tree code: the numeric code together with whether IS_TYPE_OR_DECL_P holds
for it (the code class is a type or declaration class). -/
structure tree_code where
  code : Nat
  type_or_decl : Bool
deriving DecidableEq, Repr

def VAR_DECL : tree_code := ⟨1, true⟩

def FUNCTION_DECL : tree_code := ⟨2, true⟩

def ADDR_EXPR : tree_code := ⟨10, false⟩

def FDESC_EXPR : tree_code := ⟨11, false⟩

/-- Boundary of the generic tree codes: codes at or past it are
front-end specific and are delegated to the analyze_expr hook. -/
def LAST_AND_UNUSED_TREE_CODE : Nat := 100

/-- Generic tree: the code, the TREE_STATIC and DECL_EXTERNAL flags, the
declaration id (meaningful for decl codes) and the operand list. -/
inductive tree where
  | mk (code : tree_code) (tree_static : Bool) (decl_external : Bool)
      (decl_id : Nat) (ops : List tree)

def tree.code : tree → tree_code
  | .mk c _ _ _ _ => c

def tree.tree_static : tree → Bool
  | .mk _ s _ _ _ => s

def tree.decl_external : tree → Bool
  | .mk _ _ e _ _ => e

def tree.decl_id : tree → Nat
  | .mk _ _ _ d _ => d

def tree.ops : tree → List tree
  | .mk _ _ _ _ o => o

/-- Variable node of the varpool: the flags the driver reads plus the
DECL_INITIAL tree of the declaration. -/
structure varpool_node where
  needed : Bool := false
  analyzed : Bool := false
  finalized : Bool := false
  alias_flag : Bool := false
  decl_external : Bool := false
  asm_written : Bool := false
  initial : Option tree := none

/-- Whole-unit driver state: the intern table as a total map over declaration
ids plus the list of ids present in the graph, the function reachable
worklist (cgraph_nodes_queue, FIFO with the head at the front), the varpool
with its unanalyzed and assembly queues, the two one-way latches, and the log
of the functions passed to the back-end expand hook in order. -/
structure unit_state where
  node_of : Nat → cgraph_node
  node_ids : List Nat
  nodes_queue : List Nat
  var_of : Nat → varpool_node
  var_ids : List Nat
  varpool_unanalyzed : List Nat
  varpool_queue : List Nat
  global_info_ready : Bool
  function_flags_ready : Bool
  expanded : List Nat

/-- Pointwise update of one node of the intern table. -/
def upd_node (st : unit_state) (i : Nat) (f : cgraph_node → cgraph_node) : unit_state :=
  { st with node_of := fun j => if j = i then f (st.node_of j) else st.node_of j }

/-- Modelled from the spec: the callgraph store interns one node per
declaration on first lookup (spec 4.1); cgraph.c, which implements
cgraph_node, is not among the sources.  The map already carries the
declaration data, so interning only records membership. -/
def cgraph_intern_node (st : unit_state) (i : Nat) : unit_state :=
  if i ∈ st.node_ids then st else { st with node_ids := st.node_ids ++ [i] }

/-- Modelled from the spec: cgraph_mark_reachable_node of cgraph.c is
idempotent, sets the reachable flag and enqueues the node onto the reachable
worklist with its worklist link set (spec 4.1). -/
def cgraph_mark_reachable_node (st : unit_state) (i : Nat) : unit_state :=
  let st := cgraph_intern_node st i
  if (st.node_of i).reachable then st
  else
    let st := upd_node st i fun n => { n with reachable := true, next_needed := true }
    { st with nodes_queue := st.nodes_queue ++ [i] }

/-- Modelled from the spec: cgraph_mark_needed_node of cgraph.c is idempotent,
sets the needed flag, and needed implies reachable, so it marks the node
reachable as well (spec 4.1). -/
def cgraph_mark_needed_node (st : unit_state) (i : Nat) : unit_state :=
  let st := cgraph_intern_node st i
  let st := upd_node st i fun n => { n with needed := true }
  cgraph_mark_reachable_node st i

/-- Modelled from the spec: cgraph_varpool_mark_needed_node of cgraph.c is
idempotent; the first call sets needed and enqueues the variable both for
analysis and for assembling (spec 4.1). -/
def cgraph_varpool_mark_needed_node (st : unit_state) (i : Nat) : unit_state :=
  if (st.var_of i).needed then st
  else
    { st with
      var_of := fun j => if j = i then { st.var_of j with needed := true } else st.var_of j
      var_ids := if i ∈ st.var_ids then st.var_ids else st.var_ids ++ [i]
      varpool_unanalyzed := st.varpool_unanalyzed ++ [i]
      varpool_queue := st.varpool_queue ++ [i] }

/-- Result of one application of a walk_tree callback: the returned tree
(a non-none return stops the walk), the walk_subtrees flag and the updated
driver state. -/
structure walk_result where
  ret : Option tree
  walk_subtrees : Bool
  st : unit_state

/-- Front-end callgraph hooks: whether lang_hooks.callgraph.analyze_expr is
installed, and the hook itself. -/
structure lang_hooks_callgraph where
  analyze_expr_present : Bool
  analyze_expr : tree → unit_state → walk_result

/-- Trivial hook set: analyze_expr is not installed and behaves as a no-op. -/
def no_lang_hooks : lang_hooks_callgraph :=
  ⟨false, fun _ st => ⟨none, true, st⟩⟩

/-- Translation of record_reference (cgraphunit.c:469-516): a static or
external VAR_DECL marks the varpool node needed and, when the analyze_expr
hook is installed, delegates to it; ADDR_EXPR and FDESC_EXPR over a
FUNCTION_DECL operand mark the function node needed in unit-at-a-time mode;
type and declaration codes prune the walk; codes past the generic range
delegate to the analyze_expr hook (the source calls it there without a
presence check, so the model represents the executions where it is
installed). -/
def record_reference (LH : lang_hooks_callgraph) (flag_unit_at_a_time : Bool)
    (t : tree) (st : unit_state) : walk_result :=
  if t.code = VAR_DECL then
    if t.tree_static || t.decl_external then
      let st := cgraph_varpool_mark_needed_node st t.decl_id
      if LH.analyze_expr_present then LH.analyze_expr t st
      else ⟨none, true, st⟩
    else ⟨none, true, st⟩
  else if t.code = FDESC_EXPR || t.code = ADDR_EXPR then
    if flag_unit_at_a_time then
      match t.ops.head? with
      | some d =>
          if d.code = FUNCTION_DECL then ⟨none, true, cgraph_mark_needed_node st d.decl_id⟩
          else ⟨none, true, st⟩
      | none => ⟨none, true, st⟩
    else ⟨none, true, st⟩
  else
    if t.code.type_or_decl then ⟨none, false, st⟩
    else if LAST_AND_UNUSED_TREE_CODE ≤ t.code.code then LH.analyze_expr t st
    else ⟨none, true, st⟩

/-- Modelled from the spec: walk_tree of tree.c (not among the sources)
applies the callback to each node of the list of trees in order, stops when
the callback returns a tree, and recurses into the operands unless the
callback cleared walk_subtrees (spec 4.2).  Per-walk deduplication is
immaterial here because the callbacks considered are idempotent markers. -/
def walk_tree_list (f : tree → unit_state → walk_result) :
    List tree → unit_state → unit_state × Option tree
  | [], st => (st, none)
  | t :: ts, st =>
    let r := f t st
    match r.ret with
    | some x => (r.st, some x)
    | none =>
      let sub := if r.walk_subtrees then walk_tree_list f t.ops r.st else (r.st, none)
      match sub with
      | (st2, some x) => (st2, some x)
      | (st2, none) => walk_tree_list f ts st2
termination_by l _ => sizeOf l
decreasing_by
  all_goals cases t
  all_goals simp [tree.ops]
  all_goals omega

/-- Translation of cgraph_varpool_analyze_pending_decls (cgraphunit.c:259-284):
drain the unanalyzed-variable queue, setting analyzed before walking the
DECL_INITIAL of each drained variable with record_reference, and report
whether anything was drained.  The fuel bounds the loop (new variables may be
discovered while walking); none means the fuel ran out. -/
def cgraph_varpool_analyze_pending_decls (LH : lang_hooks_callgraph)
    (flag_unit_at_a_time : Bool) :
    Nat → unit_state → Bool → Option (unit_state × Bool)
  | 0, st, changed =>
      if st.varpool_unanalyzed.isEmpty then some (st, changed) else none
  | fuel + 1, st, changed =>
      match st.varpool_unanalyzed with
      | [] => some (st, changed)
      | v :: rest =>
          let st := { st with
            varpool_unanalyzed := rest
            var_of := fun j => if j = v then { st.var_of j with analyzed := true } else st.var_of j }
          let st :=
            match (st.var_of v).initial with
            | some t => (walk_tree_list (record_reference LH flag_unit_at_a_time) [t] st).1
            | none => st
          cgraph_varpool_analyze_pending_decls LH flag_unit_at_a_time fuel st true

/-- Modelled from the spec: cgraph_create_edge of cgraph.c (not among the
sources) interns the callee, then links a fresh edge into the caller's
callee list and the callee's caller list in insertion order, seeding
inline_failed with a placeholder reason that initialize_inline_failed
overwrites (spec 4.1, 4.4). -/
def cgraph_create_edge (st : unit_state) (caller callee : Nat) : unit_state :=
  let st := cgraph_intern_node st callee
  let e : cgraph_edge := ⟨caller, callee, some "function not considered for inlining"⟩
  let st := upd_node st caller fun n => { n with callees := n.callees ++ [e] }
  upd_node st callee fun n => { n with callers := n.callers ++ [e] }

/-- Modelled from the spec: cgraph_node_remove_callees of cgraph.c (not among
the sources) severs every outgoing edge of the node, unlinking each from its
callee's caller list (spec 4.1). -/
def cgraph_node_remove_callees (st : unit_state) (nid : Nat) : unit_state :=
  { st with node_of := fun j =>
      let n := st.node_of j
      let n := { n with callers := n.callers.filter (fun e => e.caller ≠ nid) }
      if j = nid then { n with callees := [] } else n }

/-- Modelled from the spec: cgraph_remove_node of cgraph.c (not among the
sources) unlinks the node from all caller and callee edge lists and removes
it from the intern table (spec 4.1). -/
def cgraph_remove_node (st : unit_state) (nid : Nat) : unit_state :=
  let st := cgraph_node_remove_callees st nid
  let st := { st with node_of := fun j =>
      let n := st.node_of j
      if j = nid then n
      else { n with callees := n.callees.filter (fun e => e.callee ≠ nid) } }
  { st with node_ids := st.node_ids.filter (fun j => j ≠ nid) }

/-- Loop of initialize_inline_failed (cgraphunit.c:575-592) over the caller
edges of the node: assert the callee (the node itself, as every edge in the
caller list targets it) has no inlined_to and that inline_failed is set, then
overwrite inline_failed with the priority-ordered initial reason. -/
def initialize_inline_failed_loop (node : cgraph_node) :
    List cgraph_edge → Except String (List cgraph_edge)
  | [] => pure []
  | e :: es => do
      if node.global_info.inlined_to.isSome then
        throw "gcc_assert failed: callee of a caller edge has inlined_to set"
      else if e.inline_failed.isNone then
        throw "gcc_assert failed: inline_failed unset before seeding"
      else
        let e2 :=
          if node.local_info.redefined_extern_inline then
            { e with inline_failed := some "redefined extern inline functions are not considered for inlining" }
          else if !node.local_info.inlinable then
            { e with inline_failed := some "function not inlinable" }
          else
            { e with inline_failed := some "function not considered for inlining" }
        let rest ← initialize_inline_failed_loop node es
        pure (e2 :: rest)

/-- Translation of initialize_inline_failed (cgraphunit.c:575-592): seed the
inline_failed reason of every inbound edge of the node. -/
def initialize_inline_failed (node : cgraph_node) : Except String cgraph_node := do
  let callers ← initialize_inline_failed_loop node node.callers
  pure { node with callers := callers }

/-- Oracles for the external collaborators of cgraph_analyze_function:
tree_inlinable_function_p, estimate_num_insns, the front-end
disregard_inline_limits hook, the callee declarations that
cgraph_create_edges finds walking the lowered body's CFG, and the
flag_really_no_inline flag. -/
structure analysis_oracles where
  inlinable_p : Nat → Bool
  self_insns_of : Nat → Nat
  disregard_limits : Nat → Bool
  calls_in_body : Nat → List Nat
  flag_really_no_inline : Bool

/-- Edge building of cgraph_create_edges (cgraphunit.c:520-570) with the CFG
walk abstracted by the calls_in_body oracle: one edge per discovered call
site, in block order. -/
def cgraph_create_edges_model (O : analysis_oracles) (st : unit_state) (nid : Nat) : unit_state :=
  (O.calls_in_body nid).foldl (fun s c => cgraph_create_edge s nid c) st

/-- Translation of cgraph_analyze_function (cgraphunit.c:830-856): lower the
function, build its edges, query the inliner oracle for inlinability, size
and limit exemption, seed the inbound inline_failed reasons, apply the
flag_really_no_inline override, seed the global size and set analyzed. -/
def cgraph_analyze_function (O : analysis_oracles) (st : unit_state) (nid : Nat) :
    Except String unit_state := do
  let st := upd_node st nid fun n => { n with lowered := true }
  let st := cgraph_create_edges_model O st nid
  let st := upd_node st nid fun n =>
    let inl := O.inlinable_p nid
    { n with local_info :=
        { n.local_info with
          inlinable := inl
          self_insns := O.self_insns_of nid
          disregard_inline_limits :=
            if inl then O.disregard_limits nid else n.local_info.disregard_inline_limits } }
  let node2 ← initialize_inline_failed (st.node_of nid)
  let st := upd_node st nid fun _ => node2
  let st := upd_node st nid fun n =>
    { n with
      local_info :=
        { n.local_info with
          inlinable :=
            if O.flag_really_no_inline && !n.local_info.disregard_inline_limits then false
            else n.local_info.inlinable }
      global_info := { n.global_info with insns := n.local_info.self_insns }
      analyzed := true }
  pure st

/-- The memset portions of cgraph_reset_node (cgraphunit.c:371-379): zero the
local, global and rtl substructures of the node, clear analyzed, and record
the extern-inline redefinition. -/
def reset_memset (n : cgraph_node) : cgraph_node :=
  { n with
    local_info := { redefined_extern_inline := true }
    global_info := {}
    rtl_info := 0
    analyzed := false }

/-- Translation of cgraph_reset_node (cgraphunit.c:360-402): assert the node
is not marked for output, zero the local, global and rtl substructures, clear
analyzed, record the extern-inline redefinition, clear finalized; when not in
unit-at-a-time mode remove every node inlined into this one; sever the callee
edges; and when not in unit-at-a-time mode clear reachable if the node is not
on the needed queue. -/
def cgraph_reset_node (flag_unit_at_a_time : Bool) (st : unit_state) (nid : Nat) :
    Except String unit_state := do
  if (st.node_of nid).output then
    throw "gcc_assert failed: resetting a node already marked for output"
  else
    let st := upd_node st nid fun n =>
      { n with
        local_info := { redefined_extern_inline := true }
        global_info := {}
        rtl_info := 0
        analyzed := false }
    let st :=
      if !flag_unit_at_a_time then
        ((st.node_ids.filter
            (fun j => (st.node_of j).global_info.inlined_to = some nid)).foldl
          cgraph_remove_node st)
      else st
    let st := cgraph_node_remove_callees st nid
    let st :=
      if (st.node_of nid).reachable && !flag_unit_at_a_time then
        if nid ∈ st.nodes_queue then st
        else upd_node st nid fun n => { n with reachable := false }
      else st
    pure st

/-- Redefinition guard at the head of cgraph_finalize_function
(cgraphunit.c:414-415): a node that is already finalized is reset before the
new body is installed. -/
def cgraph_finalize_function_reset_step (flag_unit_at_a_time : Bool)
    (st : unit_state) (nid : Nat) : Except String unit_state :=
  if (st.node_of nid).local_info.finalized then cgraph_reset_node flag_unit_at_a_time st nid
  else pure st

/-- Synthesized constructor or destructor declaration: the tree flags
cgraph_build_static_cdtor sets on it. -/
structure cdtor_decl where
  tree_static : Bool := false
  tree_used : Bool := false
  artificial : Bool := false
  ignored : Bool := false
  no_instrument : Bool := false
  saved_tree : Bool := false
  tree_public : Bool := false
  uninlinable : Bool := false
  static_constructor : Bool := false
  static_destructor : Bool := false
deriving DecidableEq, Repr

/-- Outcome of cgraph_build_static_cdtor: the synthesized declaration, whether
it was routed through cgraph_finalize_function (pre-IPA) rather than directly
through lowering and expansion, and the priority-tagged constructor or
destructor references handed to the target. -/
structure cdtor_output where
  decl : cdtor_decl
  routed_through_finalize : Bool
  target_refs : List (Char × Int)
deriving DecidableEq, Repr

/-- Translation of cgraph_build_static_cdtor (cgraphunit.c:1295-1364): build
the synthetic void function, leave it public exactly when the target has no
native ctor or dtor support, mark it a static constructor for discriminator
I and a static destructor for D and abort on any other discriminator, route
it through finalize or directly through compilation depending on
global_info_ready, and, when the target has native support, emit a
priority-tagged constructor or destructor reference. -/
def cgraph_build_static_cdtor (which : Char) (priority : Int)
    (have_ctors_dtors : Bool) (global_info_ready : Bool) :
    Except String cdtor_output := do
  let d : cdtor_decl :=
    { tree_static := true
      tree_used := true
      artificial := true
      ignored := true
      no_instrument := true
      saved_tree := true
      tree_public := !have_ctors_dtors
      uninlinable := true }
  let d ←
    if which = 'I' then pure { d with static_constructor := true }
    else if which = 'D' then pure { d with static_destructor := true }
    else throw "gcc_unreachable: discriminator is neither I nor D"
  let routed := !global_info_ready
  let refs : List (Char × Int) := if have_ctors_dtors then [(which, priority)] else []
  pure { decl := d, routed_through_finalize := routed, target_refs := refs }

/-- Body of the reachable-worklist loop of cgraph_finalize_compilation_unit
(cgraphunit.c:897-925): pop the front node and clear its worklist link; if
its saved body vanished, reset it and continue; otherwise assert it is
unanalyzed and reachable, analyze it, mark every not-yet-reachable callee of
its freshly built edges reachable, and drain the pending-variable analyzer
again.  On an empty queue the state is returned unchanged. -/
def cgraph_finalize_unit_step (O : analysis_oracles) (LH : lang_hooks_callgraph)
    (flag_unit_at_a_time : Bool) (vfuel : Nat) (st : unit_state) :
    Except String unit_state :=
  match st.nodes_queue with
  | [] => pure st
  | nid :: rest => do
      let st := { st with nodes_queue := rest }
      let st := upd_node st nid fun n => { n with next_needed := false }
      if !(st.node_of nid).saved_tree then
        cgraph_reset_node flag_unit_at_a_time st nid
      else if (st.node_of nid).analyzed || !(st.node_of nid).reachable then
        throw "gcc_assert failed: queued node analyzed or unreachable"
      else do
        let st ← cgraph_analyze_function O st nid
        let st := (st.node_of nid).callees.foldl
          (fun s e =>
            if !(s.node_of e.callee).reachable then cgraph_mark_reachable_node s e.callee
            else s) st
        match cgraph_varpool_analyze_pending_decls LH flag_unit_at_a_time vfuel st false with
        | some (st2, _) => pure st2
        | none => throw "variable analyzer fuel exhausted"

/-- Reachable-worklist drain of cgraph_finalize_compilation_unit
(cgraphunit.c:897-925): repeat the step until the queue is empty; the fuel
bounds the loop because analysis may enqueue newly reachable callees. -/
def cgraph_finalize_unit_drain (O : analysis_oracles) (LH : lang_hooks_callgraph)
    (flag_unit_at_a_time : Bool) (vfuel : Nat) :
    Nat → unit_state → Except String unit_state
  | 0, st => if st.nodes_queue.isEmpty then pure st else throw "drain fuel exhausted"
  | fuel + 1, st =>
      match st.nodes_queue with
      | [] => pure st
      | _ :: _ => do
          let st2 ← cgraph_finalize_unit_step O LH flag_unit_at_a_time vfuel st
          cgraph_finalize_unit_drain O LH flag_unit_at_a_time vfuel fuel st2

/-- Reclamation sweep of cgraph_finalize_compilation_unit
(cgraphunit.c:942-960) over the nodes introduced since the previous call
(the id list): reset a finalized node whose body is gone, remove an
unreachable node whose body is present, otherwise clear the worklist link
and assert that a finalized survivor has its body and that analyzed equals
finalized.  The sweep runs only in unit-at-a-time mode, so the reset is the
unit-at-a-time one. -/
def cgraph_finalize_unit_reclaim : List Nat → unit_state → Except String unit_state
  | [], st => pure st
  | nid :: rest, st => do
      let st ←
        if (st.node_of nid).local_info.finalized && !(st.node_of nid).saved_tree then
          cgraph_reset_node true st nid
        else pure st
      if !(st.node_of nid).reachable && (st.node_of nid).saved_tree then
        cgraph_finalize_unit_reclaim rest (cgraph_remove_node st nid)
      else do
        let st := upd_node st nid fun n => { n with next_needed := false }
        if (st.node_of nid).local_info.finalized && !(st.node_of nid).saved_tree then
          throw "gcc_assert failed: finalized node without a body after the sweep"
        else if (st.node_of nid).analyzed != (st.node_of nid).local_info.finalized then
          throw "gcc_assert failed: analyzed differs from finalized"
        else
          cgraph_finalize_unit_reclaim rest st

/-- Loop of cgraph_mark_functions_to_output (cgraphunit.c:970-1015) over the
node list: assert output is unset, look for a caller edge that has not been
inlined, mark for output every node with a body, not inlined into another,
needed or reachable through a non-inlined call, not yet assembled and not
external; any other node still holding a body and neither inlined away nor
external is a reclamation failure (internal error). -/
def cgraph_mark_functions_to_output_loop : List Nat → unit_state → Except String unit_state
  | [], st => pure st
  | nid :: rest, st => do
      let n := st.node_of nid
      if n.output then throw "gcc_assert failed: output already set"
      else
        let e := n.callers.find? (fun e => e.inline_failed.isSome)
        if n.saved_tree && n.global_info.inlined_to.isNone
            && (n.needed || (e.isSome && n.reachable))
            && !n.asm_written && !n.decl_external then
          cgraph_mark_functions_to_output_loop rest
            (upd_node st nid fun n => { n with output := true })
        else if n.global_info.inlined_to.isSome || !n.saved_tree || n.decl_external then
          cgraph_mark_functions_to_output_loop rest st
        else
          throw "internal error: failed to reclaim unneeded function"

/-- Translation of cgraph_mark_functions_to_output (cgraphunit.c:970-1015):
run the marking loop over every node of the graph. -/
def cgraph_mark_functions_to_output (st : unit_state) : Except String unit_state :=
  cgraph_mark_functions_to_output_loop st.node_ids st

/-- External collaborators of function expansion: the observable effect of
the back-end expand hook on TREE_ASM_WRITTEN, the tree-dump enablement read
by cgraph_preserve_function_body_p, and flag_really_no_inline. -/
structure expand_hooks where
  expand_function_emits : Nat → Bool
  dump_enabled_tree_all : Bool
  flag_really_no_inline : Bool

/-- Translation of cgraph_preserve_function_body_p (cgraphunit.c:1179-1193):
keep the body when dumping is enabled; before global information is ready,
keep it exactly for DECL_INLINE functions unless flag_really_no_inline;
afterwards keep it when any clone of the declaration (the node itself or a
member of its clone chain) is inlined somewhere. -/
def cgraph_preserve_function_body_p (H : expand_hooks) (st : unit_state) (nid : Nat) : Bool :=
  if H.dump_enabled_tree_all then true
  else if !st.global_info_ready then
    (st.node_of nid).decl_inline && !H.flag_really_no_inline
  else
    ((st.node_of nid).global_info.inlined_to :: (st.node_of nid).clone_inlined_to).any
      (fun x => x.isSome)

/-- Translation of cgraph_expand_function (cgraphunit.c:1019-1051): assert
the node is not an inline clone, lower it, invoke the back-end expand hook
(logged in the expansion log), assert the assembly was written, and unless
the body must be preserved drop the saved body, clear the struct-function
handle, set DECL_INITIAL to the error mark and sever all callee edges;
finally latch function_flags_ready. -/
def cgraph_expand_function (H : expand_hooks) (st : unit_state) (nid : Nat) :
    Except String unit_state := do
  if (st.node_of nid).global_info.inlined_to.isSome then
    throw "gcc_assert failed: expanding an inline clone"
  else
    let st := upd_node st nid fun n => { n with lowered := true }
    let st := upd_node st nid fun n => { n with asm_written := H.expand_function_emits nid }
    let st := { st with expanded := st.expanded ++ [nid] }
    if !(st.node_of nid).asm_written then
      throw "gcc_assert failed: no assembly written by the expand hook"
    else
      let st :=
        if !cgraph_preserve_function_body_p H st nid then
          let st := upd_node st nid fun n =>
            { n with saved_tree := false, struct_function := false, decl_initial_error := true }
          cgraph_node_remove_callees st nid
        else st
      pure { st with function_flags_ready := true }

/-- Reverse loop of cgraph_expand_all_functions (cgraphunit.c:1092-1101),
taking the filtered order already reversed: expand each node whose output
flag is still set, clearing the flag first and asserting reachability; a
node found with its output flag already cleared is skipped. -/
def cgraph_expand_all_loop (H : expand_hooks) : List Nat → unit_state → Except String unit_state
  | [], st => pure st
  | nid :: rest, st => do
      if (st.node_of nid).output then
        if !(st.node_of nid).reachable then
          throw "gcc_assert failed: output node not reachable"
        else do
          let st := upd_node st nid fun n => { n with output := false }
          let st ← cgraph_expand_function H st nid
          cgraph_expand_all_loop H rest st
      else cgraph_expand_all_loop H rest st

/-- Translation of cgraph_expand_all_functions (cgraphunit.c:1074-1103): the
postorder over the callgraph is computed by the external cgraph_postorder
primitive and supplied as the order argument; assert it covers exactly the
nodes of the graph, filter it to the nodes marked for output, and iterate
the filtered array in reverse. -/
def cgraph_expand_all_functions (H : expand_hooks) (order : List Nat) (st : unit_state) :
    Except String unit_state := do
  if order.length ≠ st.node_ids.length then
    throw "gcc_assert failed: postorder does not cover all nodes"
  else
    let new_order := order.filter (fun i => (st.node_of i).output)
    cgraph_expand_all_loop H new_order.reverse st

/-- Queue drain of cgraph_assemble_pending_functions (cgraphunit.c:333-346):
pop each node, clear its worklist link, and expand it when it is not inlined
into another node, not an alias and not external, recording whether anything
was expanded.  The fuel bounds the loop. -/
def cgraph_assemble_pending_loop (H : expand_hooks) :
    Nat → unit_state → Bool → Except String (unit_state × Bool)
  | 0, st, output =>
      if st.nodes_queue.isEmpty then pure (st, output) else throw "pending loop fuel exhausted"
  | fuel + 1, st, output =>
      match st.nodes_queue with
      | [] => pure (st, output)
      | nid :: rest => do
          let st := { st with nodes_queue := rest }
          let st := upd_node st nid fun n => { n with next_needed := false }
          if (st.node_of nid).global_info.inlined_to.isNone
              && !(st.node_of nid).alias_flag
              && !(st.node_of nid).decl_external then do
            let st ← cgraph_expand_function H st nid
            cgraph_assemble_pending_loop H fuel st true
          else
            cgraph_assemble_pending_loop H fuel st output

/-- Translation of cgraph_assemble_pending_functions (cgraphunit.c:325-349):
in unit-at-a-time mode return false immediately; otherwise drain the needed
queue and return whether any function was expanded. -/
def cgraph_assemble_pending_functions (H : expand_hooks) (flag_unit_at_a_time : Bool)
    (st : unit_state) : Except String (unit_state × Bool) :=
  if flag_unit_at_a_time then pure (st, false)
  else cgraph_assemble_pending_loop H st.nodes_queue.length st false

/-
Concrete inputs used by the witnesses, and small helpers for extracting the
state carried by a successful run.
-/

/-- Extract the state of a successful run, with a fallback for errors. -/
def except_get (x : Except String unit_state) (d : unit_state) : unit_state :=
  match x with
  | .ok s => s
  | .error _ => d

/-- Extract the state and flag of a successful pending-assembly run. -/
def except_get_pair (x : Except String (unit_state × Bool)) (d : unit_state × Bool) :
    unit_state × Bool :=
  match x with
  | .ok s => s
  | .error _ => d

/-- Condition under which the pending-assembly drain expands a dequeued node:
not inlined into another node, not an alias, not external
(cgraphunit.c:339-341). -/
def pending_ok_node (st : unit_state) (i : Nat) : Bool :=
  (st.node_of i).global_info.inlined_to.isNone
    && !(st.node_of i).alias_flag && !(st.node_of i).decl_external

/-- Empty driver state over default nodes and variables. -/
def base_state : unit_state :=
  { node_of := fun _ => {}
    node_ids := []
    nodes_queue := []
    var_of := fun _ => {}
    var_ids := []
    varpool_unanalyzed := []
    varpool_queue := []
    global_info_ready := false
    function_flags_ready := false
    expanded := [] }

/-- Installed analyze_expr hook that behaves as a no-op; used to exercise the
delegation paths. -/
def hook_example : lang_hooks_callgraph :=
  ⟨true, fun _ st => ⟨none, true, st⟩⟩

/-- Expand hooks whose back-end hook always writes assembly, with dumping
disabled and flag_really_no_inline off. -/
def H_C8 : expand_hooks := ⟨fun _ => true, false, false⟩

/-- One-node graph (every id mapped to the same analyzed, reachable node with
a body and one callee edge), for the expansion witness. -/
def st_C8 : unit_state :=
  { base_state with
    node_of := fun _ =>
      { saved_tree := true, reachable := true, analyzed := true
        callees := [⟨1, 2, some "x"⟩] }
    node_ids := [1] }

/-- State after expanding node 1 of the graph above. -/
def st_C8r : unit_state := except_get (cgraph_expand_function H_C8 st_C8 1) base_state

/-- Streaming-mode state whose needed queue holds an expandable node 1 and an
external node 2, for the pending-assembly witness. -/
def st_C10 : unit_state :=
  { base_state with
    nodes_queue := [1, 2]
    node_of := fun i =>
      if i = 2 then { decl_external := true, next_needed := true }
      else { next_needed := true } }

/-- State after draining the pending queue of the state above. -/
def st_C10r : unit_state :=
  (except_get_pair (cgraph_assemble_pending_functions H_C8 false st_C10)
    (base_state, false)).1

/-- One-node graph whose node is needed, reachable, analyzed and finalized
with a body, for the output-marking witness. -/
def st_C1 : unit_state :=
  { base_state with
    node_of := fun _ =>
      { saved_tree := true, needed := true, reachable := true, analyzed := true
        local_info := { finalized := true } }
    node_ids := [0] }

/-- State after cgraph_mark_functions_to_output on the graph above. -/
def st_C1r : unit_state := except_get (cgraph_mark_functions_to_output st_C1) base_state

/-- Two-node graph with both nodes marked for output, for the expansion
scheduler witness. -/
def st_C4 : unit_state :=
  { base_state with
    node_of := fun _ => { output := true, reachable := true, saved_tree := true }
    node_ids := [1, 2] }

/-- State after cgraph_expand_all_functions on the graph above with postorder
order 1, 2. -/
def st_C4r : unit_state :=
  except_get (cgraph_expand_all_functions H_C8 [1, 2] st_C4) base_state

/-- Node with one inbound edge after an extern-inline redefinition, for the
inline-failed seeding witness. -/
def node_C6 : cgraph_node :=
  { local_info := { redefined_extern_inline := true, finalized := true }
    callers := [⟨1, 2, some "seed"⟩] }

/-- Reference to a static variable (declaration id 3), for the reference
walker witness. -/
def tree_C7a : tree := tree.mk VAR_DECL true false 3 []

/-- Function declaration (id 4), operand of the address expression below. -/
def tree_C7f : tree := tree.mk FUNCTION_DECL false false 4 []

/-- Address-of-function expression over the declaration above, for the
reference walker witness. -/
def tree_C7b : tree := tree.mk ADDR_EXPR false false 0 [tree_C7f]

/-- Static constructor declaration produced for discriminator I on a target
without native ctor or dtor sections, before IPA. -/
def cdtor_example_I : cdtor_output :=
  { decl :=
      { tree_static := true
        tree_used := true
        artificial := true
        ignored := true
        no_instrument := true
        saved_tree := true
        tree_public := true
        uninlinable := true
        static_constructor := true
        static_destructor := false }
    routed_through_finalize := true
    target_refs := [] }

/-- State for the redefinition-reset witness: node 5 is finalized and
reachable, node 7 has been inlined into node 5, and the needed queue is
empty. -/
def st_C5 : unit_state :=
  { base_state with
    node_of := fun i =>
      if i = 7 then { global_info := { inlined_to := some 5 } }
      else { local_info := { finalized := true }, reachable := true }
    node_ids := [5, 7] }

/-- Result of resetting node 5 of the state above outside unit-at-a-time
mode. -/
def st_C5r : unit_state := except_get (cgraph_reset_node false st_C5 5) base_state

/-- State for the reclamation-sweep witness: node 6 kept its body but became
unreachable, while every other node is finalized and analyzed with no body
retained. -/
def st_C3 : unit_state :=
  { base_state with
    node_of := fun i =>
      if i = 6 then
        { analyzed := true, saved_tree := true, local_info := { finalized := true } }
      else { analyzed := true, local_info := { finalized := true } }
    node_ids := [5, 6] }

/-- Hypotheses of the reclamation sweep, as measured at its entry: no node is
marked for output yet, every reachable node with a body has been analyzed,
and every analyzed node is finalized. -/
def sweep_hyps (st : unit_state) : Prop :=
  (∀ i, (st.node_of i).output = false) ∧
  (∀ i, (st.node_of i).reachable = true → (st.node_of i).saved_tree = true →
    (st.node_of i).analyzed = true) ∧
  (∀ i, (st.node_of i).analyzed = true → (st.node_of i).local_info.finalized = true)

/-- The callgraph footprint of the reference recorder: it leaves the analyzed
flags and the callee edge lists of every node unchanged and only ever turns
reachable flags on. -/
def marks_only (st st2 : unit_state) : Prop :=
  (∀ j, (st2.node_of j).analyzed = (st.node_of j).analyzed) ∧
  (∀ j, (st2.node_of j).callees = (st.node_of j).callees) ∧
  (∀ j, (st.node_of j).reachable = true → (st2.node_of j).reachable = true)

/-- Oracles for the worklist-drain witness: every function is inlinable, of
unit size, not limit-exempt and without call sites. -/
def O_C2 : analysis_oracles :=
  ⟨fun _ => true, fun _ => 1, fun _ => false, fun _ => [], false⟩

/-- State for the worklist-drain witness: node 3 is queued, reachable,
unanalyzed, and keeps its body; nothing is pending in the varpool. -/
def st_C2 : unit_state :=
  { base_state with
    node_of := fun _ => { reachable := true, saved_tree := true }
    node_ids := [3]
    nodes_queue := [3] }

/-- Result of one drain step on the state above. -/
def st_C2r : unit_state :=
  except_get (cgraph_finalize_unit_step O_C2 no_lang_hooks true 1 st_C2) base_state

/-- Result of draining the whole queue of the state above. -/
def st_C2d : unit_state :=
  except_get (cgraph_finalize_unit_drain O_C2 no_lang_hooks true 1 2 st_C2) base_state

/-
Helper lemmas about the state primitives.
-/

@[simp] theorem upd_node_same (st : unit_state) (i : Nat) (f : cgraph_node → cgraph_node) :
    (upd_node st i f).node_of i = f (st.node_of i) := by
  simp [upd_node]

theorem upd_node_other (st : unit_state) (i j : Nat) (f : cgraph_node → cgraph_node)
    (h : j ≠ i) : (upd_node st i f).node_of j = st.node_of j := by
  simp [upd_node, h]

@[simp] theorem upd_node_node_ids (st : unit_state) (i : Nat) (f : cgraph_node → cgraph_node) :
    (upd_node st i f).node_ids = st.node_ids := rfl

@[simp] theorem upd_node_nodes_queue (st : unit_state) (i : Nat) (f : cgraph_node → cgraph_node) :
    (upd_node st i f).nodes_queue = st.nodes_queue := rfl

@[simp] theorem upd_node_var_of (st : unit_state) (i : Nat) (f : cgraph_node → cgraph_node) :
    (upd_node st i f).var_of = st.var_of := rfl

@[simp] theorem upd_node_varpool_unanalyzed (st : unit_state) (i : Nat)
    (f : cgraph_node → cgraph_node) :
    (upd_node st i f).varpool_unanalyzed = st.varpool_unanalyzed := rfl

@[simp] theorem upd_node_expanded (st : unit_state) (i : Nat) (f : cgraph_node → cgraph_node) :
    (upd_node st i f).expanded = st.expanded := rfl

@[simp] theorem upd_node_global_info_ready (st : unit_state) (i : Nat)
    (f : cgraph_node → cgraph_node) :
    (upd_node st i f).global_info_ready = st.global_info_ready := rfl

@[simp] theorem intern_node_of (st : unit_state) (i : Nat) :
    (cgraph_intern_node st i).node_of = st.node_of := by
  unfold cgraph_intern_node
  split <;> rfl

@[simp] theorem intern_nodes_queue (st : unit_state) (i : Nat) :
    (cgraph_intern_node st i).nodes_queue = st.nodes_queue := by
  unfold cgraph_intern_node
  split <;> rfl

@[simp] theorem intern_var_of (st : unit_state) (i : Nat) :
    (cgraph_intern_node st i).var_of = st.var_of := by
  unfold cgraph_intern_node
  split <;> rfl

@[simp] theorem intern_varpool_unanalyzed (st : unit_state) (i : Nat) :
    (cgraph_intern_node st i).varpool_unanalyzed = st.varpool_unanalyzed := by
  unfold cgraph_intern_node
  split <;> rfl

@[simp] theorem intern_expanded (st : unit_state) (i : Nat) :
    (cgraph_intern_node st i).expanded = st.expanded := by
  unfold cgraph_intern_node
  split <;> rfl

theorem varpool_mark_needed_sets (st : unit_state) (i : Nat) :
    ((cgraph_varpool_mark_needed_node st i).var_of i).needed = true := by
  unfold cgraph_varpool_mark_needed_node
  by_cases h : (st.var_of i).needed <;> simp [h]

theorem mark_reachable_reachable (st : unit_state) (i : Nat) :
    ((cgraph_mark_reachable_node st i).node_of i).reachable = true := by
  unfold cgraph_mark_reachable_node
  by_cases h : (st.node_of i).reachable = true <;> simp [h, upd_node]

theorem mark_needed_needed (st : unit_state) (i : Nat) :
    ((cgraph_mark_needed_node st i).node_of i).needed = true := by
  unfold cgraph_mark_needed_node cgraph_mark_reachable_node
  by_cases h : (st.node_of i).reachable = true <;> simp [h, upd_node]

theorem remove_callees_node_of (st : unit_state) (nid j : Nat) :
    (cgraph_node_remove_callees st nid).node_of j =
      { st.node_of j with
        callers := (st.node_of j).callers.filter (fun e => e.caller ≠ nid)
        callees := if j = nid then [] else (st.node_of j).callees } := by
  unfold cgraph_node_remove_callees
  by_cases h : j = nid <;> simp [h]

@[simp] theorem remove_callees_node_ids (st : unit_state) (nid : Nat) :
    (cgraph_node_remove_callees st nid).node_ids = st.node_ids := rfl

@[simp] theorem remove_callees_nodes_queue (st : unit_state) (nid : Nat) :
    (cgraph_node_remove_callees st nid).nodes_queue = st.nodes_queue := rfl

@[simp] theorem remove_callees_expanded (st : unit_state) (nid : Nat) :
    (cgraph_node_remove_callees st nid).expanded = st.expanded := rfl

@[simp] theorem remove_callees_varpool_unanalyzed (st : unit_state) (nid : Nat) :
    (cgraph_node_remove_callees st nid).varpool_unanalyzed = st.varpool_unanalyzed := rfl

theorem remove_node_node_of (st : unit_state) (nid j : Nat) :
    (cgraph_remove_node st nid).node_of j =
      { st.node_of j with
        callers := (st.node_of j).callers.filter (fun e => e.caller ≠ nid)
        callees :=
          if j = nid then []
          else ((st.node_of j).callees.filter (fun e => e.callee ≠ nid)) } := by
  unfold cgraph_remove_node
  by_cases h : j = nid <;> simp [h, remove_callees_node_of]

@[simp] theorem remove_node_node_ids (st : unit_state) (nid : Nat) :
    (cgraph_remove_node st nid).node_ids = st.node_ids.filter (fun j => j ≠ nid) := rfl

@[simp] theorem remove_node_nodes_queue (st : unit_state) (nid : Nat) :
    (cgraph_remove_node st nid).nodes_queue = st.nodes_queue := rfl

theorem preserve_congr (H : expand_hooks) (st2 st : unit_state) (nid : Nat)
    (h1 : st2.global_info_ready = st.global_info_ready)
    (h2 : (st2.node_of nid).decl_inline = (st.node_of nid).decl_inline)
    (h3 : (st2.node_of nid).global_info.inlined_to = (st.node_of nid).global_info.inlined_to)
    (h4 : (st2.node_of nid).clone_inlined_to = (st.node_of nid).clone_inlined_to) :
    cgraph_preserve_function_body_p H st2 nid = cgraph_preserve_function_body_p H st nid := by
  unfold cgraph_preserve_function_body_p
  rw [h1, h2, h3, h4]

theorem preserve_after_expand_updates (H : expand_hooks) (st : unit_state) (nid : Nat) :
    cgraph_preserve_function_body_p H
      (let st1 := upd_node st nid fun n => { n with lowered := true }
       let st2 := upd_node st1 nid fun n => { n with asm_written := H.expand_function_emits nid }
       { st2 with expanded := st2.expanded ++ [nid] }) nid
      = cgraph_preserve_function_body_p H st nid := by
  apply preserve_congr <;> simp [upd_node]

theorem expand_function_cases (H : expand_hooks) (st : unit_state) (nid : Nat) :
    ((st.node_of nid).global_info.inlined_to.isSome = true →
      cgraph_expand_function H st nid =
        Except.error "gcc_assert failed: expanding an inline clone") ∧
    ((st.node_of nid).global_info.inlined_to.isSome = false →
      H.expand_function_emits nid = false →
      cgraph_expand_function H st nid =
        Except.error "gcc_assert failed: no assembly written by the expand hook") := by
  constructor
  · intro h
    unfold cgraph_expand_function
    rw [if_pos h]
    rfl
  · intro h h2
    unfold cgraph_expand_function
    rw [if_neg (by simp [h])]
    simp [upd_node, h2]
    rfl

theorem expand_function_ok (H : expand_hooks) (st : unit_state) (nid : Nat) (st2 : unit_state)
    (hok : cgraph_expand_function H st nid = Except.ok st2) :
    (st.node_of nid).global_info.inlined_to = none ∧
    H.expand_function_emits nid = true ∧
    (st2.node_of nid).asm_written = true ∧
    (cgraph_preserve_function_body_p H st nid = false →
      (st2.node_of nid).saved_tree = false ∧
      (st2.node_of nid).struct_function = false ∧
      (st2.node_of nid).decl_initial_error = true ∧
      (st2.node_of nid).callees = []) ∧
    (cgraph_preserve_function_body_p H st nid = true →
      (st2.node_of nid).saved_tree = (st.node_of nid).saved_tree ∧
      (st2.node_of nid).struct_function = (st.node_of nid).struct_function ∧
      (st2.node_of nid).decl_initial_error = (st.node_of nid).decl_initial_error ∧
      (st2.node_of nid).callees = (st.node_of nid).callees) ∧
    st2.function_flags_ready = true ∧
    st2.expanded = st.expanded ++ [nid] ∧
    st2.nodes_queue = st.nodes_queue ∧
    st2.node_ids = st.node_ids ∧
    st2.varpool_unanalyzed = st.varpool_unanalyzed ∧
    (∀ j, (st2.node_of j).global_info = (st.node_of j).global_info ∧
      (st2.node_of j).alias_flag = (st.node_of j).alias_flag ∧
      (st2.node_of j).decl_external = (st.node_of j).decl_external ∧
      (st2.node_of j).next_needed = (st.node_of j).next_needed ∧
      (st2.node_of j).output = (st.node_of j).output ∧
      (st2.node_of j).reachable = (st.node_of j).reachable ∧
      (st2.node_of j).analyzed = (st.node_of j).analyzed ∧
      (st2.node_of j).needed = (st.node_of j).needed ∧
      (st2.node_of j).local_info = (st.node_of j).local_info) := by
  unfold cgraph_expand_function at hok
  by_cases h1 : (st.node_of nid).global_info.inlined_to.isSome = true
  · rw [if_pos h1] at hok
    exact absurd hok (by simp)
  · rw [if_neg h1] at hok
    by_cases h2 : H.expand_function_emits nid = true
    · rw [if_neg (by simp [upd_node, h2])] at hok
      split at hok
      next h3 =>
        injection hok with h
        subst h
        rw [preserve_after_expand_updates] at h3
        simp only [Bool.not_eq_eq_eq_not, Bool.not_true] at h3
        refine ⟨Option.not_isSome_iff_eq_none.mp (by simp [h1]), h2, ?_, ?_, ?_, rfl, ?_, ?_, ?_, ?_, ?_⟩
        · simp [remove_callees_node_of, upd_node, h2]
        · intro _
          refine ⟨?_, ?_, ?_, ?_⟩ <;> simp [remove_callees_node_of, upd_node]
        · intro hc
          rw [hc] at h3
          exact Bool.noConfusion h3
        · simp
        · simp
        · simp
        · simp
        · intro j
          by_cases hj : j = nid <;>
            simp [remove_callees_node_of, upd_node, hj]
      next h3 =>
        injection hok with h
        subst h
        rw [preserve_after_expand_updates] at h3
        simp only [Bool.not_eq_eq_eq_not, Bool.not_true, Bool.not_eq_false] at h3
        refine ⟨Option.not_isSome_iff_eq_none.mp (by simp [h1]), h2, by simp [upd_node, h2], ?_, ?_, rfl, rfl, rfl, rfl, rfl, ?_⟩
        · intro hc
          rw [hc] at h3
          exact Bool.noConfusion h3
        · intro _
          refine ⟨by simp [upd_node], by simp [upd_node], by simp [upd_node], by simp [upd_node]⟩
        · intro j
          by_cases hj : j = nid <;>
            simp [upd_node, hj]
    · rw [if_pos (by simp [upd_node, h2])] at hok
      exact absurd hok (by simp)

/-
Claim C8: cgraph_expand_function.
-/

/-- C8: cgraph_expand_function requires the node to have no inlined_to
(asserting otherwise), asserts after the back-end expand hook runs that the
assembly was written, and, unless cgraph_preserve_function_body_p holds for
the declaration, drops the saved body, clears the struct-function handle,
sets DECL_INITIAL to the error mark and removes all callee edges of the
node (keeping them all when the body is preserved). -/
theorem expand_function_spec (H : expand_hooks) (st : unit_state) (nid : Nat) :
    ((st.node_of nid).global_info.inlined_to ≠ none →
      ∃ msg, cgraph_expand_function H st nid = Except.error msg) ∧
    (∀ st2, cgraph_expand_function H st nid = Except.ok st2 →
      (st.node_of nid).global_info.inlined_to = none ∧
      (st2.node_of nid).asm_written = true ∧
      H.expand_function_emits nid = true ∧
      (cgraph_preserve_function_body_p H st nid = false →
        (st2.node_of nid).saved_tree = false ∧
        (st2.node_of nid).struct_function = false ∧
        (st2.node_of nid).decl_initial_error = true ∧
        (st2.node_of nid).callees = []) ∧
      (cgraph_preserve_function_body_p H st nid = true →
        (st2.node_of nid).saved_tree = (st.node_of nid).saved_tree ∧
        (st2.node_of nid).struct_function = (st.node_of nid).struct_function ∧
        (st2.node_of nid).decl_initial_error = (st.node_of nid).decl_initial_error ∧
        (st2.node_of nid).callees = (st.node_of nid).callees)) := by
  constructor
  · intro h
    refine ⟨"gcc_assert failed: expanding an inline clone", ?_⟩
    exact (expand_function_cases H st nid).1 (Option.isSome_iff_ne_none.mpr h)
  · intro st2 hok
    obtain ⟨a, b, c, d, e, _⟩ := expand_function_ok H st nid st2 hok
    exact ⟨a, c, b, d, e⟩

/-
Claim C9: the static constructor and destructor synthesizer.
-/

/-- C9: cgraph_build_static_cdtor called with a discriminator other than I or
D aborts fatally; with I it marks the synthesized declaration a static
constructor and with D a static destructor; the declaration is publicly
visible exactly when the target lacks native ctor or dtor section support,
and when the target has such support a priority-tagged constructor or
destructor reference is emitted instead. -/
theorem build_static_cdtor_spec (which : Char) (priority : Int) (hcd ready : Bool) :
    (which ≠ 'I' → which ≠ 'D' →
      ∃ msg, cgraph_build_static_cdtor which priority hcd ready = Except.error msg) ∧
    (∀ out, cgraph_build_static_cdtor which priority hcd ready = Except.ok out →
      (which = 'I' → out.decl.static_constructor = true ∧ out.decl.static_destructor = false) ∧
      (which = 'D' → out.decl.static_destructor = true ∧ out.decl.static_constructor = false) ∧
      (out.decl.tree_public = !hcd) ∧
      (out.target_refs = if hcd then [(which, priority)] else [])) := by
  by_cases hI : which = 'I'
  · subst hI
    have hval : cgraph_build_static_cdtor 'I' priority hcd ready =
        Except.ok
          { decl :=
              { tree_static := true, tree_used := true, artificial := true, ignored := true,
                no_instrument := true, saved_tree := true, tree_public := !hcd,
                uninlinable := true, static_constructor := true, static_destructor := false }
            routed_through_finalize := !ready
            target_refs := if hcd then [('I', priority)] else [] } := rfl
    constructor
    · intro h
      exact absurd rfl h
    · intro out hout
      rw [hval] at hout
      injection hout with h
      subst h
      refine ⟨fun _ => ⟨rfl, rfl⟩, fun h => absurd h (by decide), rfl, rfl⟩
  · by_cases hD : which = 'D'
    · subst hD
      have hval : cgraph_build_static_cdtor 'D' priority hcd ready =
          Except.ok
            { decl :=
                { tree_static := true, tree_used := true, artificial := true, ignored := true,
                  no_instrument := true, saved_tree := true, tree_public := !hcd,
                  uninlinable := true, static_constructor := false, static_destructor := true }
              routed_through_finalize := !ready
              target_refs := if hcd then [('D', priority)] else [] } := rfl
      constructor
      · intro _ h
        exact absurd rfl h
      · intro out hout
        rw [hval] at hout
        injection hout with h
        subst h
        refine ⟨fun h => absurd h (by decide), fun _ => ⟨rfl, rfl⟩, rfl, rfl⟩
    · have hval : cgraph_build_static_cdtor which priority hcd ready =
          Except.error "gcc_unreachable: discriminator is neither I nor D" := by
        unfold cgraph_build_static_cdtor
        rw [if_neg hI, if_neg hD]
        rfl
      constructor
      · intro _ _
        exact ⟨_, hval⟩
      · intro out hout
        rw [hval] at hout
        exact Except.noConfusion hout

/-
Claim C6: seeding of the inline_failed reasons.
-/

theorem initialize_inline_failed_loop_ok (node : cgraph_node)
    (h1 : node.global_info.inlined_to = none) :
    ∀ es : List cgraph_edge, (∀ e ∈ es, e.inline_failed.isSome = true) →
      ∃ es2, initialize_inline_failed_loop node es = Except.ok es2 ∧
        ∀ e ∈ es2, e.inline_failed = some
          (if node.local_info.redefined_extern_inline then
            "redefined extern inline functions are not considered for inlining"
          else if !node.local_info.inlinable then "function not inlinable"
          else "function not considered for inlining") := by
  intro es
  induction es with
  | nil => exact fun _ => ⟨[], rfl, by simp⟩
  | cons e es ih =>
    intro h2
    obtain ⟨es2, hok, hall⟩ := ih (fun x hx => h2 x (List.mem_cons_of_mem _ hx))
    have he := h2 e (List.mem_cons_self e es)
    obtain ⟨v, hv⟩ := Option.isSome_iff_exists.mp he
    refine ⟨(if node.local_info.redefined_extern_inline then
        { e with inline_failed := some "redefined extern inline functions are not considered for inlining" }
      else if !node.local_info.inlinable then
        { e with inline_failed := some "function not inlinable" }
      else { e with inline_failed := some "function not considered for inlining" }) :: es2, ?_, ?_⟩
    · unfold initialize_inline_failed_loop
      simp [h1, hv, hok, bind, Except.bind, pure, Except.pure]
    · intro x hx
      rcases List.mem_cons.mp hx with h | h
      · subst h
        by_cases hr : node.local_info.redefined_extern_inline = true
        · simp [hr]
        · by_cases hi : node.local_info.inlinable = true <;> simp [hr, hi]
      · exact hall x h

/-- C6: after analysis (whose last inbound-edge step is
initialize_inline_failed), every inbound edge's inline_failed reason follows
the deterministic priority: redefined extern inline beats not-inlinable beats
not-considered; in particular after an extern-inline redefinition every
inbound edge carries the redefined-extern-inline reason. -/
theorem initialize_inline_failed_spec (node : cgraph_node)
    (h1 : node.global_info.inlined_to = none)
    (h2 : ∀ e ∈ node.callers, e.inline_failed.isSome = true) :
    ∃ node2, initialize_inline_failed node = Except.ok node2 ∧
      (∀ e ∈ node2.callers, e.inline_failed = some
        (if node.local_info.redefined_extern_inline then
          "redefined extern inline functions are not considered for inlining"
        else if !node.local_info.inlinable then "function not inlinable"
        else "function not considered for inlining")) ∧
      (node.local_info.redefined_extern_inline = true →
        ∀ e ∈ node2.callers,
          e.inline_failed = some "redefined extern inline functions are not considered for inlining") := by
  obtain ⟨es2, hok, hall⟩ := initialize_inline_failed_loop_ok node h1 node.callers h2
  refine ⟨{ node with callers := es2 }, ?_, ?_, ?_⟩
  · unfold initialize_inline_failed
    simp [hok, bind, Except.bind, pure, Except.pure]
  · intro e he
    exact hall e he
  · intro hr e he
    have h := hall e he
    rw [if_pos hr] at h
    exact h

/-- Witness for C6: a node with one seeded inbound edge after an
extern-inline redefinition gets the redefined-extern-inline reason on that
edge. -/
theorem initialize_inline_failed_spec_witness :
    node_C6.global_info.inlined_to = none ∧
    (∀ e ∈ node_C6.callers, e.inline_failed.isSome = true) ∧
    ∃ node2, initialize_inline_failed node_C6 = Except.ok node2 ∧
      (∀ e ∈ node2.callers, e.inline_failed = some
        (if node_C6.local_info.redefined_extern_inline then
          "redefined extern inline functions are not considered for inlining"
        else if !node_C6.local_info.inlinable then "function not inlinable"
        else "function not considered for inlining")) ∧
      (node_C6.local_info.redefined_extern_inline = true →
        ∀ e ∈ node2.callers,
          e.inline_failed = some "redefined extern inline functions are not considered for inlining") :=
  ⟨rfl, by decide, initialize_inline_failed_spec node_C6 rfl (by decide)⟩

/-
Claim C7: the reference walker.
-/

/-- C7: record_reference marks a static or external variable reference needed
in the varpool and then delegates to the installed analyze_expr hook; it
marks an address-taken function needed exactly in whole-unit mode; it prunes
type and declaration subtrees; and it delegates tree codes past the generic
range to the analyze_expr hook. -/
theorem record_reference_spec (LH : lang_hooks_callgraph) (fu : Bool) (t : tree)
    (st : unit_state) :
    (t.code = VAR_DECL → (t.tree_static = true ∨ t.decl_external = true) →
      (((cgraph_varpool_mark_needed_node st t.decl_id).var_of t.decl_id).needed = true) ∧
      (LH.analyze_expr_present = true →
        record_reference LH fu t st =
          LH.analyze_expr t (cgraph_varpool_mark_needed_node st t.decl_id))) ∧
    (∀ d, (t.code = ADDR_EXPR ∨ t.code = FDESC_EXPR) → t.ops.head? = some d →
      d.code = FUNCTION_DECL →
      (fu = true →
        record_reference LH fu t st = ⟨none, true, cgraph_mark_needed_node st d.decl_id⟩ ∧
        ((cgraph_mark_needed_node st d.decl_id).node_of d.decl_id).needed = true) ∧
      (fu = false → record_reference LH fu t st = ⟨none, true, st⟩)) ∧
    (t.code ≠ VAR_DECL → t.code ≠ ADDR_EXPR → t.code ≠ FDESC_EXPR →
      t.code.type_or_decl = true → record_reference LH fu t st = ⟨none, false, st⟩) ∧
    (t.code ≠ VAR_DECL → t.code ≠ ADDR_EXPR → t.code ≠ FDESC_EXPR →
      t.code.type_or_decl = false → LAST_AND_UNUSED_TREE_CODE ≤ t.code.code →
      record_reference LH fu t st = LH.analyze_expr t st) := by
  refine ⟨?_, ?_, ?_, ?_⟩
  · intro ht hsd
    refine ⟨varpool_mark_needed_sets st t.decl_id, ?_⟩
    intro hp
    have hb : (t.tree_static || t.decl_external) = true := by
      rcases hsd with h | h <;> simp [h]
    simp [record_reference, ht, hb, hp]
  · intro d hcode hhead hd
    have hne : ¬ t.code = VAR_DECL := by
      rcases hcode with h | h <;> rw [h] <;> decide
    have hb : (t.code = FDESC_EXPR ∨ t.code = ADDR_EXPR) := by
      rcases hcode with h | h
      · exact Or.inr h
      · exact Or.inl h
    constructor
    · intro hfu
      subst hfu
      constructor
      · rcases hb with h | h <;>
          simp [record_reference, VAR_DECL, FUNCTION_DECL, ADDR_EXPR, FDESC_EXPR, h, hhead, hd]
      · exact mark_needed_needed st d.decl_id
    · intro hfu
      subst hfu
      rcases hb with h | h <;>
        simp [record_reference, VAR_DECL, FUNCTION_DECL, ADDR_EXPR, FDESC_EXPR, h, hhead, hd]
  · intro h1 h2 h3 htd
    simp [record_reference, h1, h2, h3, htd]
  · intro h1 h2 h3 htd hge
    simp [record_reference, h1, h2, h3, htd, hge]

/-- Witness for C7: a static variable reference is marked needed in the
varpool and delegated to the installed hook, and an address-of-function
expression outside whole-unit mode leaves the state untouched. -/
theorem record_reference_spec_witness :
    tree_C7a.code = VAR_DECL ∧
    (tree_C7a.tree_static = true ∨ tree_C7a.decl_external = true) ∧
    hook_example.analyze_expr_present = true ∧
    ((cgraph_varpool_mark_needed_node base_state tree_C7a.decl_id).var_of
        tree_C7a.decl_id).needed = true ∧
    record_reference hook_example true tree_C7a base_state =
      hook_example.analyze_expr tree_C7a
        (cgraph_varpool_mark_needed_node base_state tree_C7a.decl_id) ∧
    (tree_C7b.code = ADDR_EXPR ∨ tree_C7b.code = FDESC_EXPR) ∧
    tree_C7b.ops.head? = some tree_C7f ∧
    tree_C7f.code = FUNCTION_DECL ∧
    record_reference hook_example false tree_C7b base_state = ⟨none, true, base_state⟩ :=
  ⟨rfl, Or.inl rfl, rfl,
    ((record_reference_spec hook_example true tree_C7a base_state).1 rfl (Or.inl rfl)).1,
    ((record_reference_spec hook_example true tree_C7a base_state).1 rfl (Or.inl rfl)).2 rfl,
    Or.inl rfl, rfl, rfl,
    (((record_reference_spec hook_example false tree_C7b base_state).2.1 tree_C7f
        (Or.inl rfl) rfl rfl).2) rfl⟩

/-- Witness for C9: the discriminator X is fatal, and discriminator I on a
target without native ctor sections yields a public static constructor with
no target reference. -/
theorem build_static_cdtor_spec_witness :
    (('X' : Char) ≠ 'I') ∧ (('X' : Char) ≠ 'D') ∧
    (∃ msg, cgraph_build_static_cdtor 'X' 0 true false = Except.error msg) ∧
    (cgraph_build_static_cdtor 'I' 7 false false = Except.ok cdtor_example_I) ∧
    (cdtor_example_I.decl.static_constructor = true ∧
      cdtor_example_I.decl.static_destructor = false) ∧
    cdtor_example_I.decl.tree_public = !false ∧
    cdtor_example_I.target_refs = (if false then [(('I' : Char), (7 : Int))] else []) :=
  ⟨by decide, by decide,
    (build_static_cdtor_spec 'X' 0 true false).1 (by decide) (by decide),
    rfl,
    ((build_static_cdtor_spec 'I' 7 false false).2 cdtor_example_I rfl).1 rfl,
    ((build_static_cdtor_spec 'I' 7 false false).2 cdtor_example_I rfl).2.2.1,
    ((build_static_cdtor_spec 'I' 7 false false).2 cdtor_example_I rfl).2.2.2⟩

/-
Claim C8 witness, and claim C10: the pending-assembly drain.
-/

/-- Witness for C8: expanding node 1 of the concrete graph succeeds, writes
its assembly, and (its body not being preserved) drops the body, the
struct-function handle and the callee edges and sets DECL_INITIAL to the
error mark. -/
theorem expand_function_spec_witness :
    cgraph_expand_function H_C8 st_C8 1 = Except.ok st_C8r ∧
    (st_C8.node_of 1).global_info.inlined_to = none ∧
    (st_C8r.node_of 1).asm_written = true ∧
    H_C8.expand_function_emits 1 = true ∧
    cgraph_preserve_function_body_p H_C8 st_C8 1 = false ∧
    (st_C8r.node_of 1).saved_tree = false ∧
    (st_C8r.node_of 1).struct_function = false ∧
    (st_C8r.node_of 1).decl_initial_error = true ∧
    (st_C8r.node_of 1).callees = [] :=
  have hok : cgraph_expand_function H_C8 st_C8 1 = Except.ok st_C8r := rfl
  have hs := (expand_function_spec H_C8 st_C8 1).2 st_C8r hok
  ⟨hok, hs.1, hs.2.1, hs.2.2.1, rfl,
    (hs.2.2.2.1 rfl).1, (hs.2.2.2.1 rfl).2.1, (hs.2.2.2.1 rfl).2.2.1, (hs.2.2.2.1 rfl).2.2.2⟩

theorem except_bind_ok {α β : Type} (x : Except String α) (f : α → Except String β) (b : β)
    (h : (x >>= f) = Except.ok b) : ∃ a, x = Except.ok a ∧ f a = Except.ok b := by
  cases x with
  | error e => simp [Bind.bind, Except.bind] at h
  | ok a => exact ⟨a, rfl, by simpa [Bind.bind, Except.bind] using h⟩

theorem assemble_pending_loop_ok (H : expand_hooks) :
    ∀ (fuel : Nat) (st : unit_state) (acc : Bool) (st2 : unit_state) (b : Bool),
      cgraph_assemble_pending_loop H fuel st acc = Except.ok (st2, b) →
      st2.nodes_queue = [] ∧
      st2.expanded = st.expanded ++ (st.nodes_queue.filter (pending_ok_node st)) ∧
      b = (acc || !((st.nodes_queue.filter (pending_ok_node st)).isEmpty)) ∧
      (∀ i ∈ st.nodes_queue, (st2.node_of i).next_needed = false) ∧
      (∀ j, (st2.node_of j).next_needed = true → (st.node_of j).next_needed = true) := by
  intro fuel
  induction fuel with
  | zero =>
    intro st acc st2 b hok
    unfold cgraph_assemble_pending_loop at hok
    by_cases hq : st.nodes_queue.isEmpty = true
    · rw [if_pos hq] at hok
      injection hok with h
      injection h with h1 h2
      subst h1
      subst h2
      have hqe : st.nodes_queue = [] := List.isEmpty_iff.mp hq
      rw [hqe]
      simp
    · rw [if_neg hq] at hok
      exact absurd hok (by simp)
  | succ fuel ih =>
    intro st acc st2 b hok
    unfold cgraph_assemble_pending_loop at hok
    split at hok
    next heq =>
      injection hok with h
      injection h with h1 h2
      subst h1
      subst h2
      rw [heq]
      simp
    next nid rest heq =>
      simp only [] at hok
      split at hok
      next hc =>
        obtain ⟨stC, hE, hok2⟩ := except_bind_ok _ _ _ hok
        obtain ⟨q2e, e2e, b2e, n4, n5⟩ := ih _ true st2 b hok2
        obtain ⟨-, -, -, -, -, -, hexp, hque, -, -, hfr⟩ := expand_function_ok H _ nid stC hE
        have hcb : pending_ok_node st nid = true := by
          simpa [pending_ok_node, upd_node] using hc
        have hpend : ∀ i, pending_ok_node stC i = pending_ok_node st i := by
          intro i
          obtain ⟨g1, g2, g3, -⟩ := hfr i
          unfold pending_ok_node
          rw [g1, g2, g3]
          by_cases hi : i = nid <;> simp [upd_node, hi]
        have hqC : stC.nodes_queue = rest := by
          rw [hque]
          simp
        have hexpC : stC.expanded = st.expanded ++ [nid] := by
          rw [hexp]
          simp
        have hnn_nid : (stC.node_of nid).next_needed = false := by
          obtain ⟨-, -, -, g4, -⟩ := hfr nid
          rw [g4]
          simp [upd_node]
        have hnn_other : ∀ j, j ≠ nid →
            (stC.node_of j).next_needed = (st.node_of j).next_needed := by
          intro j hj
          obtain ⟨-, -, -, g4, -⟩ := hfr j
          rw [g4]
          simp [upd_node, hj]
        have hfilt : rest.filter (pending_ok_node stC) = rest.filter (pending_ok_node st) :=
          List.filter_congr (fun i _ => hpend i)
        refine ⟨q2e, ?_, ?_, ?_, ?_⟩
        · rw [e2e, hexpC, hqC, hfilt, heq]
          simp [List.filter_cons, hcb]
        · rw [b2e, hqC, hfilt, heq]
          simp [List.filter_cons, hcb]
        · intro i hi
          rw [heq] at hi
          rcases List.mem_cons.mp hi with hi | hi
          · subst hi
            cases hbv : (st2.node_of i).next_needed with
            | false => rfl
            | true =>
              have h5 := n5 i hbv
              rw [hnn_nid] at h5
              exact Bool.noConfusion h5
          · have hmem : i ∈ stC.nodes_queue := by
              rw [hqC]
              exact hi
            exact n4 i hmem
        · intro j hj
          have h5 := n5 j hj
          by_cases hjn : j = nid
          · subst hjn
            rw [hnn_nid] at h5
            exact Bool.noConfusion h5
          · rw [hnn_other j hjn] at h5
            exact h5
      next hc =>
        obtain ⟨q2e, e2e, b2e, n4, n5⟩ := ih _ acc st2 b hok
        have hcb : pending_ok_node st nid = false := by
          have h2 : ¬ (pending_ok_node st nid = true) := by
            intro hh
            apply hc
            simpa [pending_ok_node, upd_node] using hh
          exact Bool.not_eq_true _ ▸ (by simpa using h2)
        have hpend : ∀ i, pending_ok_node
            (upd_node { st with nodes_queue := rest } nid fun n => { n with next_needed := false }) i
              = pending_ok_node st i := by
          intro i
          by_cases hi : i = nid <;> simp [pending_ok_node, upd_node, hi]
        refine ⟨q2e, ?_, ?_, ?_, ?_⟩
        · rw [e2e]
          rw [List.filter_congr (fun i _ => hpend i)]
          rw [heq]
          simp [List.filter_cons, hcb]
        · rw [b2e]
          rw [List.filter_congr (fun i _ => hpend i)]
          rw [heq]
          simp [List.filter_cons, hcb]
        · intro i hi
          rw [heq] at hi
          rcases List.mem_cons.mp hi with hi | hi
          · subst hi
            cases hbv : (st2.node_of i).next_needed with
            | false => rfl
            | true =>
              have h5 := n5 i hbv
              rw [upd_node_same] at h5
              exact Bool.noConfusion h5
          · exact n4 i hi
        · intro j hj
          have h5 := n5 j hj
          by_cases hjn : j = nid
          · subst hjn
            rw [upd_node_same] at h5
            exact Bool.noConfusion h5
          · rw [upd_node_other _ _ _ _ hjn] at h5
            exact h5

/-- C10: cgraph_assemble_pending_functions in unit-at-a-time mode returns
false and expands nothing; in streaming mode it drains the needed queue,
expanding exactly the dequeued nodes that are not inlined into another node,
not aliases and not external, clearing each dequeued node's worklist link,
and returns true exactly when at least one function was expanded. -/
theorem assemble_pending_functions_spec (H : expand_hooks) (st : unit_state) :
    (cgraph_assemble_pending_functions H true st = Except.ok (st, false)) ∧
    (∀ st2 b, cgraph_assemble_pending_functions H false st = Except.ok (st2, b) →
      st2.nodes_queue = [] ∧
      st2.expanded = st.expanded ++ (st.nodes_queue.filter (pending_ok_node st)) ∧
      (b = true ↔ st.nodes_queue.filter (pending_ok_node st) ≠ []) ∧
      (∀ i ∈ st.nodes_queue, (st2.node_of i).next_needed = false)) := by
  constructor
  · rfl
  · intro st2 b hok
    unfold cgraph_assemble_pending_functions at hok
    rw [if_neg (by simp)] at hok
    obtain ⟨q2e, e2e, b2e, n4, -⟩ :=
      assemble_pending_loop_ok H st.nodes_queue.length st false st2 b hok
    refine ⟨q2e, e2e, ?_, n4⟩
    rw [b2e]
    cases hf : (st.nodes_queue.filter (pending_ok_node st)) with
    | nil => simp
    | cons x xs => simp

/-- Witness for C10: draining the concrete two-node queue expands only the
non-external node 1, clears both worklist links, and returns true. -/
theorem assemble_pending_functions_spec_witness :
    cgraph_assemble_pending_functions H_C8 false st_C10 = Except.ok (st_C10r, true) ∧
    cgraph_assemble_pending_functions H_C8 true st_C10 = Except.ok (st_C10, false) ∧
    st_C10r.nodes_queue = [] ∧
    st_C10r.expanded = st_C10.expanded ++ (st_C10.nodes_queue.filter (pending_ok_node st_C10)) ∧
    (true = true ↔ st_C10.nodes_queue.filter (pending_ok_node st_C10) ≠ []) ∧
    (∀ i ∈ st_C10.nodes_queue, (st_C10r.node_of i).next_needed = false) :=
  have hok : cgraph_assemble_pending_functions H_C8 false st_C10 = Except.ok (st_C10r, true) :=
    rfl
  have hs := (assemble_pending_functions_spec H_C8 st_C10).2 st_C10r true hok
  ⟨hok, (assemble_pending_functions_spec H_C8 st_C10).1, hs.1, hs.2.1, hs.2.2.1, hs.2.2.2⟩

/-
Claim C1: the output-marking invariant.
-/

theorem mark_functions_to_output_loop_ok :
    ∀ (ids : List Nat) (st : unit_state),
      (∀ i, (st.node_of i).needed = true → (st.node_of i).reachable = true) →
      (∀ i, (st.node_of i).reachable = true → (st.node_of i).saved_tree = true →
        (st.node_of i).analyzed = true) →
      (∀ i, (st.node_of i).analyzed = true → (st.node_of i).local_info.finalized = true) →
      (∀ i, (st.node_of i).output = true →
        (st.node_of i).reachable = true ∧ (st.node_of i).analyzed = true ∧
        (st.node_of i).local_info.finalized = true ∧ (st.node_of i).decl_external = false ∧
        (st.node_of i).global_info.inlined_to = none) →
      ∀ st2, cgraph_mark_functions_to_output_loop ids st = Except.ok st2 →
        ∀ i, (st2.node_of i).output = true →
          (st2.node_of i).reachable = true ∧ (st2.node_of i).analyzed = true ∧
          (st2.node_of i).local_info.finalized = true ∧ (st2.node_of i).decl_external = false ∧
          (st2.node_of i).global_info.inlined_to = none := by
  intro ids
  induction ids with
  | nil =>
    intro st h1 h2 h3 hJ st2 hok
    unfold cgraph_mark_functions_to_output_loop at hok
    injection hok with h
    subst h
    exact hJ
  | cons nid rest ih =>
    intro st h1 h2 h3 hJ st2 hok
    unfold cgraph_mark_functions_to_output_loop at hok
    simp only [] at hok
    split at hok
    next => exact absurd hok (by simp)
    next ho =>
      split at hok
      next hc =>
        simp only [Bool.and_eq_true, Bool.or_eq_true, Bool.not_eq_eq_eq_not, Bool.not_true] at hc
        obtain ⟨⟨⟨⟨hsaved, hinl⟩, hnr⟩, hasm⟩, hext⟩ := hc
        have hP : (st.node_of nid).reachable = true ∧ (st.node_of nid).analyzed = true ∧
            (st.node_of nid).local_info.finalized = true ∧
            (st.node_of nid).decl_external = false ∧
            (st.node_of nid).global_info.inlined_to = none := by
          have hr : (st.node_of nid).reachable = true := by
            rcases hnr with hn | ⟨-, hr⟩
            · exact h1 nid hn
            · exact hr
          have ha : (st.node_of nid).analyzed = true := h2 nid hr hsaved
          exact ⟨hr, ha, h3 nid ha, hext, Option.isNone_iff_eq_none.mp hinl⟩
        refine ih _ ?_ ?_ ?_ ?_ st2 hok
        · intro i
          by_cases hi : i = nid <;> simp [upd_node, hi] <;> intro hh
          · exact h1 nid (by rw [← hi] at hh ⊢; exact hh)
          · exact h1 i hh
        · intro i
          by_cases hi : i = nid <;> simp [upd_node, hi] <;> intro ha hb
          · exact h2 nid ha hb
          · exact h2 i ha hb
        · intro i
          by_cases hi : i = nid <;> simp [upd_node, hi] <;> intro ha
          · exact h3 nid ha
          · exact h3 i ha
        · intro i
          by_cases hi : i = nid
          · subst hi
            intro _
            simpa [upd_node] using hP
          · intro hout
            rw [upd_node_other _ _ _ _ hi] at hout ⊢
            exact hJ i hout
      next hc =>
        split at hok
        next => exact ih _ h1 h2 h3 hJ st2 hok
        next => exact absurd hok (by simp)

/-- C1: at the point cgraph_mark_functions_to_output completes (which is the
state cgraph_expand_all_functions then runs on, the two being consecutive in
cgraph_optimize), every node whose output flag is set is reachable, analyzed
and finalized, is not external and has no inlined_to.  The hypotheses are
the state facts holding after cgraph_finalize_compilation_unit: no output
flag is set yet, needed implies reachable, a reachable node with a body has
been analyzed, and an analyzed node is finalized. -/
theorem mark_functions_to_output_spec (st : unit_state)
    (H0 : ∀ i, (st.node_of i).output = false)
    (H1 : ∀ i, (st.node_of i).needed = true → (st.node_of i).reachable = true)
    (H2 : ∀ i, (st.node_of i).reachable = true → (st.node_of i).saved_tree = true →
      (st.node_of i).analyzed = true)
    (H3 : ∀ i, (st.node_of i).analyzed = true → (st.node_of i).local_info.finalized = true) :
    ∀ st2, cgraph_mark_functions_to_output st = Except.ok st2 →
      ∀ i, (st2.node_of i).output = true →
        (st2.node_of i).reachable = true ∧ (st2.node_of i).analyzed = true ∧
        (st2.node_of i).local_info.finalized = true ∧ (st2.node_of i).decl_external = false ∧
        (st2.node_of i).global_info.inlined_to = none := by
  intro st2 hok
  exact mark_functions_to_output_loop_ok st.node_ids st H1 H2 H3
    (fun i hout => absurd hout (by simp [H0 i])) st2 hok

/-- Witness for C1: on the one-node graph the marking succeeds, sets the
node's output flag, and the invariant holds for the marked node. -/
theorem mark_functions_to_output_spec_witness :
    (∀ i, (st_C1.node_of i).output = false) ∧
    cgraph_mark_functions_to_output st_C1 = Except.ok st_C1r ∧
    (st_C1r.node_of 0).output = true ∧
    ((st_C1r.node_of 0).reachable = true ∧ (st_C1r.node_of 0).analyzed = true ∧
      (st_C1r.node_of 0).local_info.finalized = true ∧
      (st_C1r.node_of 0).decl_external = false ∧
      (st_C1r.node_of 0).global_info.inlined_to = none) :=
  have hok : cgraph_mark_functions_to_output st_C1 = Except.ok st_C1r := rfl
  ⟨fun _ => rfl, hok, rfl,
    mark_functions_to_output_spec st_C1 (fun _ => rfl) (fun _ _ => rfl)
      (fun _ _ _ => rfl) (fun _ _ => rfl) st_C1r hok 0 rfl⟩

/-
Claim C4: the expansion scheduler.
-/

theorem expand_all_loop_ok (H : expand_hooks) :
    ∀ (L : List Nat) (st : unit_state) (st2 : unit_state),
      cgraph_expand_all_loop H L st = Except.ok st2 →
      (∃ suf, st2.expanded = st.expanded ++ suf ∧ suf.Nodup ∧
        (∀ i ∈ suf, (st.node_of i).output = true)) ∧
      (∀ j, (st2.node_of j).output = true → (st.node_of j).output = true) ∧
      (L.Nodup → (∀ i ∈ L, (st.node_of i).output = true) →
        st2.expanded = st.expanded ++ L ∧ (∀ i ∈ L, (st2.node_of i).output = false)) := by
  intro L
  induction L with
  | nil =>
    intro st st2 hok
    unfold cgraph_expand_all_loop at hok
    injection hok with h
    subst h
    exact ⟨⟨[], by simp, List.nodup_nil, by simp⟩, fun j h => h,
      fun _ _ => ⟨by simp, by simp⟩⟩
  | cons nid rest ih =>
    intro st st2 hok
    unfold cgraph_expand_all_loop at hok
    split at hok
    next ho =>
      split at hok
      next => exact absurd hok (by simp)
      next hr =>
        obtain ⟨stC, hE, hok2⟩ := except_bind_ok _ _ _ hok
        obtain ⟨⟨suf, hsuf, hnd, hsufout⟩, hmono, hstrong⟩ := ih _ st2 hok2
        obtain ⟨-, -, -, -, -, -, hexp, -, -, -, hfr⟩ := expand_function_ok H _ nid stC hE
        have hCout_nid : (stC.node_of nid).output = false := by
          obtain ⟨-, -, -, -, g5, -⟩ := hfr nid
          rw [g5]
          simp [upd_node]
        have hCout_other : ∀ j, j ≠ nid → (stC.node_of j).output = (st.node_of j).output := by
          intro j hj
          obtain ⟨-, -, -, -, g5, -⟩ := hfr j
          rw [g5]
          simp [upd_node, hj]
        have hCexp : stC.expanded = st.expanded ++ [nid] := by
          rw [hexp]
          simp
        have hnid_not_suf : nid ∉ suf := by
          intro hmem
          have := hsufout nid hmem
          rw [hCout_nid] at this
          exact Bool.noConfusion this
        refine ⟨⟨nid :: suf, ?_, ?_, ?_⟩, ?_, ?_⟩
        · rw [hsuf, hCexp]
          simp
        · exact List.nodup_cons.mpr ⟨hnid_not_suf, hnd⟩
        · intro i hi
          rcases List.mem_cons.mp hi with hi | hi
          · subst hi
            exact ho
          · have hne : i ≠ nid := fun hh => hnid_not_suf (hh ▸ hi)
            rw [← hCout_other i hne]
            exact hsufout i hi
        · intro j hout
          have hC := hmono j hout
          by_cases hj : j = nid
          · subst hj
            rw [hCout_nid] at hC
            exact Bool.noConfusion hC
          · rw [← hCout_other j hj]
            exact hC
        · intro hndL hall
          have hnid_rest : nid ∉ rest := (List.nodup_cons.mp hndL).1
          have hndR : rest.Nodup := (List.nodup_cons.mp hndL).2
          obtain ⟨he2, hc2⟩ := hstrong hndR (by
            intro i hi
            have hne : i ≠ nid := fun hh => hnid_rest (hh ▸ hi)
            rw [hCout_other i hne]
            exact hall i (List.mem_cons_of_mem _ hi))
          constructor
          · rw [he2, hCexp]
            simp
          · intro i hi
            rcases List.mem_cons.mp hi with hi | hi
            · subst hi
              cases hbv : (st2.node_of i).output with
              | false => rfl
              | true =>
                have := hmono i hbv
                rw [hCout_nid] at this
                exact Bool.noConfusion this
            · exact hc2 i hi
    next ho =>
      obtain ⟨⟨suf, hsuf, hnd, hsufout⟩, hmono, hstrong⟩ := ih _ st2 hok
      refine ⟨⟨suf, hsuf, hnd, hsufout⟩, hmono, ?_⟩
      intro _ hall
      exact absurd (hall nid (List.mem_cons_self nid rest)) ho

/-- C4: cgraph_expand_all_functions asserts the externally computed postorder
covers exactly the nodes of the graph, filters it to the nodes marked for
output, and expands that filtered array in reverse order, clearing each
node's output flag; a node whose output flag is already cleared when it is
revisited is skipped, so no node is expanded twice. -/
theorem expand_all_functions_spec (H : expand_hooks) (order : List Nat) (st : unit_state) :
    (order.length ≠ st.node_ids.length →
      ∃ msg, cgraph_expand_all_functions H order st = Except.error msg) ∧
    (∀ st2, cgraph_expand_all_functions H order st = Except.ok st2 →
      order.length = st.node_ids.length ∧
      (∃ suf, st2.expanded = st.expanded ++ suf ∧ suf.Nodup) ∧
      (order.Nodup →
        st2.expanded =
          st.expanded ++ ((order.filter (fun i => (st.node_of i).output)).reverse) ∧
        (∀ i ∈ order, (st.node_of i).output = true → (st2.node_of i).output = false))) := by
  constructor
  · intro h
    refine ⟨"gcc_assert failed: postorder does not cover all nodes", ?_⟩
    unfold cgraph_expand_all_functions
    rw [if_pos h]
    rfl
  · intro st2 hok
    unfold cgraph_expand_all_functions at hok
    by_cases h : order.length = st.node_ids.length
    · rw [if_neg (by simp [h])] at hok
      obtain ⟨⟨suf, hsuf, hnd, -⟩, -, hstrong⟩ := expand_all_loop_ok H _ st st2 hok
      refine ⟨h, ⟨suf, hsuf, hnd⟩, ?_⟩
      intro hndo
      have hLnd : ((order.filter (fun i => (st.node_of i).output)).reverse).Nodup := by
        rw [List.nodup_reverse]
        exact hndo.filter _
      have hLout : ∀ i ∈ (order.filter (fun i => (st.node_of i).output)).reverse,
          (st.node_of i).output = true := by
        intro i hi
        rw [List.mem_reverse] at hi
        exact (List.mem_filter.mp hi).2
      obtain ⟨hexp, hcleared⟩ := hstrong hLnd hLout
      refine ⟨hexp, ?_⟩
      intro i hio hout
      refine hcleared i ?_
      rw [List.mem_reverse]
      exact List.mem_filter.mpr ⟨hio, hout⟩
    · rw [if_pos h] at hok
      exact absurd hok (by simp)

/-- Witness for C4: on the two-node graph with postorder 1, 2 both nodes are
expanded, in reverse order 2, 1, and both output flags end cleared. -/
theorem expand_all_functions_spec_witness :
    cgraph_expand_all_functions H_C8 [1, 2] st_C4 = Except.ok st_C4r ∧
    [1, 2].length = st_C4.node_ids.length ∧
    ([1, 2] : List Nat).Nodup ∧
    st_C4r.expanded =
      st_C4.expanded ++ (([1, 2].filter (fun i => (st_C4.node_of i).output)).reverse) ∧
    (∀ i ∈ [1, 2], (st_C4.node_of i).output = true → (st_C4r.node_of i).output = false) :=
  have hok : cgraph_expand_all_functions H_C8 [1, 2] st_C4 = Except.ok st_C4r := rfl
  have hs := (expand_all_functions_spec H_C8 [1, 2] st_C4).2 st_C4r hok
  ⟨hok, hs.1, by decide, (hs.2.2 (by decide)).1, (hs.2.2 (by decide)).2⟩

/-
Claim C5: resetting an already-finalized node.
-/

theorem foldl_remove_facts :
    ∀ (L : List Nat) (st : unit_state),
      ((L.foldl cgraph_remove_node st).nodes_queue = st.nodes_queue) ∧
      ((L.foldl cgraph_remove_node st).varpool_unanalyzed = st.varpool_unanalyzed) ∧
      (∀ j, j ∈ (L.foldl cgraph_remove_node st).node_ids ↔ (j ∈ st.node_ids ∧ j ∉ L)) ∧
      (∀ j,
        ((L.foldl cgraph_remove_node st).node_of j).local_info = (st.node_of j).local_info ∧
        ((L.foldl cgraph_remove_node st).node_of j).global_info = (st.node_of j).global_info ∧
        ((L.foldl cgraph_remove_node st).node_of j).rtl_info = (st.node_of j).rtl_info ∧
        ((L.foldl cgraph_remove_node st).node_of j).analyzed = (st.node_of j).analyzed ∧
        ((L.foldl cgraph_remove_node st).node_of j).reachable = (st.node_of j).reachable ∧
        ((L.foldl cgraph_remove_node st).node_of j).needed = (st.node_of j).needed ∧
        ((L.foldl cgraph_remove_node st).node_of j).output = (st.node_of j).output ∧
        ((L.foldl cgraph_remove_node st).node_of j).saved_tree = (st.node_of j).saved_tree ∧
        ((L.foldl cgraph_remove_node st).node_of j).decl_external = (st.node_of j).decl_external ∧
        ((L.foldl cgraph_remove_node st).node_of j).next_needed = (st.node_of j).next_needed) := by
  intro L
  induction L with
  | nil =>
    intro st
    simp
  | cons a L ih =>
    intro st
    obtain ⟨q1, v1, m1, f1⟩ := ih (cgraph_remove_node st a)
    refine ⟨?_, ?_, ?_, ?_⟩
    · rw [List.foldl_cons, q1]
      rfl
    · rw [List.foldl_cons, v1]
      rfl
    · intro j
      rw [List.foldl_cons, m1 j]
      simp only [remove_node_node_ids, List.mem_filter, List.mem_cons, decide_eq_true_eq]
      constructor
      · rintro ⟨⟨hin, hne⟩, hnotL⟩
        exact ⟨hin, fun hh => hh.elim (fun h => hne h) hnotL⟩
      · rintro ⟨hin, hnot⟩
        exact ⟨⟨hin, fun h => hnot (Or.inl h)⟩, fun h => hnot (Or.inr h)⟩
    · intro j
      have h2 := f1 j
      rw [List.foldl_cons]
      refine ⟨h2.1.trans ?_, h2.2.1.trans ?_, h2.2.2.1.trans ?_, h2.2.2.2.1.trans ?_,
        h2.2.2.2.2.1.trans ?_, h2.2.2.2.2.2.1.trans ?_, h2.2.2.2.2.2.2.1.trans ?_,
        h2.2.2.2.2.2.2.2.1.trans ?_, h2.2.2.2.2.2.2.2.2.1.trans ?_,
        h2.2.2.2.2.2.2.2.2.2.trans ?_⟩ <;>
        rw [remove_node_node_of]

/-- C5: when cgraph_finalize_function sees an already-finalized node it
invokes cgraph_reset_node, which asserts the output flag is unset, zeroes the
local, global and rtl state (leaving redefined_extern_inline set and
finalized and analyzed cleared), removes the node's callee edges, and, only
outside unit-at-a-time mode, removes every node inlined into this one and
clears the reachable flag when the node is not on the needed queue. -/
theorem finalize_function_reset_spec (fu : Bool) (st : unit_state) (nid : Nat) :
    ((st.node_of nid).local_info.finalized = true →
      cgraph_finalize_function_reset_step fu st nid = cgraph_reset_node fu st nid) ∧
    ((st.node_of nid).output = true →
      ∃ msg, cgraph_reset_node fu st nid = Except.error msg) ∧
    ((st.node_of nid).output = false →
      ∃ st2, cgraph_reset_node fu st nid = Except.ok st2 ∧
        (st2.node_of nid).local_info =
          ({ redefined_extern_inline := true } : cgraph_local_info) ∧
        (st2.node_of nid).global_info = ({} : cgraph_global_info) ∧
        (st2.node_of nid).rtl_info = 0 ∧
        (st2.node_of nid).analyzed = false ∧
        (st2.node_of nid).callees = [] ∧
        (fu = true → st2.node_ids = st.node_ids ∧
          (st2.node_of nid).reachable = (st.node_of nid).reachable) ∧
        (fu = false →
          (∀ j, j ∈ st2.node_ids ↔ (j ∈ st.node_ids ∧
            (j = nid ∨ (st.node_of j).global_info.inlined_to ≠ some nid))) ∧
          ((st.node_of nid).reachable = true → nid ∉ st.nodes_queue →
            (st2.node_of nid).reachable = false) ∧
          (nid ∈ st.nodes_queue →
            (st2.node_of nid).reachable = (st.node_of nid).reachable))) := by
  refine ⟨?_, ?_, ?_⟩
  · intro h
    unfold cgraph_finalize_function_reset_step
    rw [if_pos h]
  · intro ho
    refine ⟨"gcc_assert failed: resetting a node already marked for output", ?_⟩
    unfold cgraph_reset_node
    rw [if_pos ho]
    rfl
  · intro ho
    have hex : ∃ x, cgraph_reset_node fu st nid = Except.ok x := by
      unfold cgraph_reset_node
      rw [if_neg (by simp [ho])]
      exact ⟨_, rfl⟩
    obtain ⟨st2, hok⟩ := hex
    refine ⟨st2, hok, ?_⟩
    unfold cgraph_reset_node at hok
    rw [if_neg (by simp [ho])] at hok
    cases fu with
    | true =>
      simp only [Bool.not_true, Bool.false_eq_true, if_false, Bool.and_false] at hok
      injection hok with h
      subst h
      refine ⟨?_, ?_, ?_, ?_, ?_, ?_, ?_⟩
      · simp [remove_callees_node_of, upd_node]
      · simp [remove_callees_node_of, upd_node]
      · simp [remove_callees_node_of, upd_node]
      · simp [remove_callees_node_of, upd_node]
      · simp [remove_callees_node_of, upd_node]
      · intro _
        constructor
        · simp
        · simp [remove_callees_node_of, upd_node]
      · intro hff
        exact Bool.noConfusion hff
    | false =>
      simp only [Bool.not_false, if_true, Bool.and_true] at hok
      split at hok
      next hcr =>
        split at hok
        next hmem =>
          injection hok with h
          subst h
          simp only [remove_callees_nodes_queue] at hmem
          rw [(foldl_remove_facts _ _).1] at hmem
          simp only [upd_node_nodes_queue] at hmem
          refine ⟨?_, ?_, ?_, ?_, ?_, ?_, ?_⟩
          · simp [remove_callees_node_of]
            rw [((foldl_remove_facts _ _).2.2.2 nid).1]
            simp [upd_node]
          · simp [remove_callees_node_of]
            rw [((foldl_remove_facts _ _).2.2.2 nid).2.1]
            simp [upd_node]
          · simp [remove_callees_node_of]
            rw [((foldl_remove_facts _ _).2.2.2 nid).2.2.1]
            simp [upd_node]
          · simp [remove_callees_node_of]
            rw [((foldl_remove_facts _ _).2.2.2 nid).2.2.2.1]
            simp [upd_node]
          · simp [remove_callees_node_of]
          · intro hff
            exact Bool.noConfusion hff
          · intro _
            refine ⟨?_, ?_, ?_⟩
            · intro j
              simp only [remove_callees_node_ids]
              rw [(foldl_remove_facts _ _).2.2.1 j]
              simp only [upd_node_node_ids, List.mem_filter, decide_eq_true_eq]
              by_cases hj : j = nid
              · subst hj
                simp [upd_node]
              · rw [upd_node_other _ _ _ _ hj]
                constructor
                · rintro ⟨hin, hnot⟩
                  refine ⟨hin, Or.inr ?_⟩
                  intro he
                  exact hnot ⟨hin, he⟩
                · rintro ⟨hin, hne⟩
                  refine ⟨hin, ?_⟩
                  rintro ⟨-, he⟩
                  rcases hne with hne | hne
                  · exact hj hne
                  · exact hne he
            · intro hr hq
              exact absurd hmem hq
            · intro _
              simp [remove_callees_node_of]
              rw [((foldl_remove_facts _ _).2.2.2 nid).2.2.2.2.1]
              simp [upd_node]
        next hmem =>
          injection hok with h
          subst h
          simp only [remove_callees_nodes_queue] at hmem
          rw [(foldl_remove_facts _ _).1] at hmem
          simp only [upd_node_nodes_queue] at hmem
          refine ⟨?_, ?_, ?_, ?_, ?_, ?_, ?_⟩
          · simp [upd_node, remove_callees_node_of]
            rw [((foldl_remove_facts _ _).2.2.2 nid).1]
            simp [upd_node]
          · simp [upd_node, remove_callees_node_of]
            rw [((foldl_remove_facts _ _).2.2.2 nid).2.1]
            simp [upd_node]
          · simp [upd_node, remove_callees_node_of]
            rw [((foldl_remove_facts _ _).2.2.2 nid).2.2.1]
            simp [upd_node]
          · simp [upd_node, remove_callees_node_of]
            rw [((foldl_remove_facts _ _).2.2.2 nid).2.2.2.1]
            simp [upd_node]
          · simp [upd_node, remove_callees_node_of]
          · intro hff
            exact Bool.noConfusion hff
          · intro _
            refine ⟨?_, ?_, ?_⟩
            · intro j
              simp only [upd_node_node_ids, remove_callees_node_ids]
              rw [(foldl_remove_facts _ _).2.2.1 j]
              simp only [upd_node_node_ids, List.mem_filter, decide_eq_true_eq]
              by_cases hj : j = nid
              · subst hj
                simp [upd_node]
              · rw [upd_node_other _ _ _ _ hj]
                constructor
                · rintro ⟨hin, hnot⟩
                  refine ⟨hin, Or.inr ?_⟩
                  intro he
                  exact hnot ⟨hin, he⟩
                · rintro ⟨hin, hne⟩
                  refine ⟨hin, ?_⟩
                  rintro ⟨-, he⟩
                  rcases hne with hne | hne
                  · exact hj hne
                  · exact hne he
            · intro _ _
              simp [upd_node]
            · intro hq
              exact absurd (hmem) (fun hh => hh hq)
      next hcr =>
        injection hok with h
        subst h
        simp only [remove_callees_node_of, upd_node_same] at hcr
        rw [((foldl_remove_facts _ _).2.2.2 nid).2.2.2.2.1] at hcr
        simp only [upd_node_same] at hcr
        have hreach : (st.node_of nid).reachable = false := by
          cases hb : (st.node_of nid).reachable with
          | false => rfl
          | true => exact absurd hb (by simpa using hcr)
        refine ⟨?_, ?_, ?_, ?_, ?_, ?_, ?_⟩
        · simp [remove_callees_node_of]
          rw [((foldl_remove_facts _ _).2.2.2 nid).1]
          simp [upd_node]
        · simp [remove_callees_node_of]
          rw [((foldl_remove_facts _ _).2.2.2 nid).2.1]
          simp [upd_node]
        · simp [remove_callees_node_of]
          rw [((foldl_remove_facts _ _).2.2.2 nid).2.2.1]
          simp [upd_node]
        · simp [remove_callees_node_of]
          rw [((foldl_remove_facts _ _).2.2.2 nid).2.2.2.1]
          simp [upd_node]
        · simp [remove_callees_node_of]
        · intro hff
          exact Bool.noConfusion hff
        · intro _
          refine ⟨?_, ?_, ?_⟩
          · intro j
            simp only [remove_callees_node_ids]
            rw [(foldl_remove_facts _ _).2.2.1 j]
            simp only [upd_node_node_ids, List.mem_filter, decide_eq_true_eq]
            by_cases hj : j = nid
            · subst hj
              simp [upd_node]
            · rw [upd_node_other _ _ _ _ hj]
              constructor
              · rintro ⟨hin, hnot⟩
                refine ⟨hin, Or.inr ?_⟩
                intro he
                exact hnot ⟨hin, he⟩
              · rintro ⟨hin, hne⟩
                refine ⟨hin, ?_⟩
                rintro ⟨-, he⟩
                rcases hne with hne | hne
                · exact hj hne
                · exact hne he
          · intro hr _
            exact absurd hr (by simp [hreach])
          · intro _
            simp [remove_callees_node_of]
            rw [((foldl_remove_facts _ _).2.2.2 nid).2.2.2.2.1]
            simp [upd_node, hreach]

theorem finalize_function_reset_spec_witness :
    (st_C5.node_of 5).local_info.finalized = true ∧
    cgraph_finalize_function_reset_step false st_C5 5 = cgraph_reset_node false st_C5 5 ∧
    (st_C5.node_of 5).output = false ∧
    cgraph_reset_node false st_C5 5 = Except.ok st_C5r ∧
    (st_C5r.node_of 5).local_info =
      ({ redefined_extern_inline := true } : cgraph_local_info) ∧
    (st_C5r.node_of 5).global_info = ({} : cgraph_global_info) ∧
    (st_C5r.node_of 5).analyzed = false ∧
    (st_C5r.node_of 5).callees = [] ∧
    7 ∉ st_C5r.node_ids ∧
    (st_C5r.node_of 5).reachable = false := by
  have hmain := finalize_function_reset_spec false st_C5 5
  have hstep := hmain.1 rfl
  obtain ⟨st2, hok, p1, p2, p3, p4, p5, pT, pF⟩ := hmain.2.2 rfl
  have hr : cgraph_reset_node false st_C5 5 = Except.ok st_C5r := rfl
  have h2 := hok.symm.trans hr
  injection h2 with he
  subst he
  obtain ⟨pm, pr1, pr2⟩ := pF rfl
  refine ⟨rfl, hstep, rfl, hr, p1, p2, p4, p5, ?_, ?_⟩
  · intro hmem
    rcases ((pm 7).mp hmem).2 with h | h
    · exact absurd h (by decide)
    · exact h rfl
  · exact pr1 rfl (by decide)

/-
Claim C3: the reclamation sweep.
-/

theorem except_ok_bind {α β : Type} (a : α) (f : α → Except String β) :
    ((Except.ok a : Except String α) >>= f) = f a := rfl

theorem except_pure_bind {α β : Type} (a : α) (f : α → Except String β) :
    ((pure a : Except String α) >>= f) = f a := rfl

theorem reset_node_unit_ok (st : unit_state) (nid : Nat)
    (ho : (st.node_of nid).output = false) :
    cgraph_reset_node true st nid = Except.ok
      (cgraph_node_remove_callees (upd_node st nid reset_memset) nid) := by
  unfold cgraph_reset_node
  rw [if_neg (by simp [ho])]
  simp
  rfl

theorem sweep_hyps_upd (st : unit_state) (nid : Nat) (h : sweep_hyps st) :
    sweep_hyps (upd_node st nid fun n => { n with next_needed := false }) := by
  obtain ⟨h0, h1, h2⟩ := h
  refine ⟨?_, ?_, ?_⟩ <;> intro i <;> by_cases hi : i = nid
  · subst hi
    simp [upd_node]
    exact h0 i
  · rw [upd_node_other _ _ _ _ hi]
    exact h0 i
  · subst hi
    simp [upd_node]
    exact h1 i
  · rw [upd_node_other _ _ _ _ hi]
    exact h1 i
  · subst hi
    simp [upd_node]
    exact h2 i
  · rw [upd_node_other _ _ _ _ hi]
    exact h2 i

theorem sweep_hyps_remove (st : unit_state) (nid : Nat) (h : sweep_hyps st) :
    sweep_hyps (cgraph_remove_node st nid) := by
  obtain ⟨h0, h1, h2⟩ := h
  refine ⟨?_, ?_, ?_⟩ <;> intro i <;> rw [remove_node_node_of]
  · exact h0 i
  · exact h1 i
  · exact h2 i

theorem sweep_hyps_reset (st : unit_state) (nid : Nat)
    (hs : (st.node_of nid).saved_tree = false) (h : sweep_hyps st) :
    sweep_hyps (cgraph_node_remove_callees (upd_node st nid reset_memset) nid) := by
  obtain ⟨h0, h1, h2⟩ := h
  refine ⟨?_, ?_, ?_⟩ <;> intro i <;> rw [remove_callees_node_of] <;> by_cases hi : i = nid
  · subst hi
    simp [upd_node, reset_memset]
    exact h0 i
  · rw [upd_node_other _ _ _ _ hi]
    exact h0 i
  · subst hi
    simp [upd_node, reset_memset, hs]
  · rw [upd_node_other _ _ _ _ hi]
    exact h1 i
  · subst hi
    simp [upd_node, reset_memset]
  · rw [upd_node_other _ _ _ _ hi]
    exact h2 i

theorem reclaim_loop_ok :
    ∀ (ids : List Nat) (st : unit_state),
      ids.Nodup → sweep_hyps st →
      ∃ st2, cgraph_finalize_unit_reclaim ids st = Except.ok st2 ∧
        (∀ nid ∈ ids, (st.node_of nid).local_info.finalized = true →
          (st.node_of nid).saved_tree = false →
          ((st2.node_of nid).analyzed = false ∧
            (st2.node_of nid).local_info.finalized = false ∧
            (st2.node_of nid).local_info.redefined_extern_inline = true ∧
            (st2.node_of nid).callees = [])) ∧
        (∀ nid ∈ ids, (st.node_of nid).reachable = false →
          (st.node_of nid).saved_tree = true → nid ∉ st2.node_ids) ∧
        (∀ nid ∈ ids, nid ∈ st2.node_ids →
          (st2.node_of nid).analyzed = (st2.node_of nid).local_info.finalized) ∧
        (∀ j, j ∉ ids →
          (st2.node_of j).analyzed = (st.node_of j).analyzed ∧
          (st2.node_of j).local_info = (st.node_of j).local_info ∧
          ((st.node_of j).callees = [] → (st2.node_of j).callees = []) ∧
          (st2.node_of j).reachable = (st.node_of j).reachable ∧
          (st2.node_of j).saved_tree = (st.node_of j).saved_tree ∧
          (st2.node_of j).output = (st.node_of j).output) ∧
        (∀ j, j ∈ st2.node_ids → j ∈ st.node_ids) := by
  intro ids
  induction ids with
  | nil =>
    intro st _ _
    exact ⟨st, rfl, by simp, by simp, by simp,
      fun j _ => ⟨rfl, rfl, fun h => h, rfl, rfl, rfl⟩, fun j h => h⟩
  | cons nid rest ih =>
    intro st hnd hyps
    have hnid_rest : nid ∉ rest := (List.nodup_cons.mp hnd).1
    have hndR : rest.Nodup := (List.nodup_cons.mp hnd).2
    obtain ⟨H0, H1, H2⟩ := hyps
    by_cases hs : (st.node_of nid).saved_tree = true
    · -- the body is present: no reset possible
      have hA : ¬(((st.node_of nid).local_info.finalized &&
          !(st.node_of nid).saved_tree) = true) := by simp [hs]
      by_cases hr : (st.node_of nid).reachable = true
      · -- reachable survivor: worklist link cleared, asserts pass
        have ha : (st.node_of nid).analyzed = true := H1 nid hr hs
        have hAF : (st.node_of nid).analyzed = (st.node_of nid).local_info.finalized := by
          rw [ha, H2 nid ha]
        obtain ⟨st2, hok2, c1, c2, c3, c4, c5⟩ :=
          ih (upd_node st nid fun n => { n with next_needed := false }) hndR
            (sweep_hyps_upd st nid ⟨H0, H1, H2⟩)
        refine ⟨st2, ?_, ?_, ?_, ?_, ?_, ?_⟩
        · simp only [cgraph_finalize_unit_reclaim]
          rw [if_neg hA, except_pure_bind]
          rw [if_neg (by simp [hr])]
          rw [if_neg (by simp [upd_node, hs])]
          rw [if_neg (by simp [upd_node, hAF])]
          exact hok2
        · intro i hi hf hsv
          rcases List.mem_cons.mp hi with hi | hi
          · subst hi
            exact absurd hsv (by simp [hs])
          · have hne : i ≠ nid := fun hh => hnid_rest (hh ▸ hi)
            exact c1 i hi (by rwa [upd_node_other _ _ _ _ hne])
              (by rwa [upd_node_other _ _ _ _ hne])
        · intro i hi hrc hsv
          rcases List.mem_cons.mp hi with hi | hi
          · subst hi
            exact absurd hrc (by simp [hr])
          · have hne : i ≠ nid := fun hh => hnid_rest (hh ▸ hi)
            exact c2 i hi (by rwa [upd_node_other _ _ _ _ hne])
              (by rwa [upd_node_other _ _ _ _ hne])
        · intro i hi hmem
          rcases List.mem_cons.mp hi with hi | hi
          · subst hi
            obtain ⟨f1, f2, -, -, -, -⟩ := c4 i hnid_rest
            rw [f1, f2, upd_node_same]
            exact hAF
          · exact c3 i hi hmem
        · intro j hj
          have hj1 : j ∉ rest := fun hh => hj (List.mem_cons_of_mem _ hh)
          have hj2 : j ≠ nid := fun hh => hj (hh ▸ List.mem_cons_self nid rest)
          obtain ⟨f1, f2, f3, f4, f5, f6⟩ := c4 j hj1
          rw [upd_node_other _ _ _ _ hj2] at f1 f2 f3 f4 f5 f6
          exact ⟨f1, f2, f3, f4, f5, f6⟩
        · intro j hj
          have := c5 j hj
          simpa using this
      · -- unreachable with a body: removed from the graph
        have hrf : (st.node_of nid).reachable = false := by
          cases hb : (st.node_of nid).reachable with
          | false => rfl
          | true => exact absurd hb hr
        obtain ⟨st2, hok2, c1, c2, c3, c4, c5⟩ :=
          ih (cgraph_remove_node st nid) hndR
            (sweep_hyps_remove st nid ⟨H0, H1, H2⟩)
        refine ⟨st2, ?_, ?_, ?_, ?_, ?_, ?_⟩
        · simp only [cgraph_finalize_unit_reclaim]
          rw [if_neg hA, except_pure_bind]
          rw [if_pos (by simp [hrf, hs])]
          exact hok2
        · intro i hi hf hsv
          rcases List.mem_cons.mp hi with hi | hi
          · subst hi
            exact absurd hsv (by simp [hs])
          · refine c1 i hi ?_ ?_ <;> rw [remove_node_node_of] <;> assumption
        · intro i hi hrc hsv
          rcases List.mem_cons.mp hi with hi | hi
          · subst hi
            intro hmem
            have := c5 _ hmem
            simp [List.mem_filter] at this
          · refine c2 i hi ?_ ?_ <;> rw [remove_node_node_of] <;> assumption
        · intro i hi hmem
          rcases List.mem_cons.mp hi with hi | hi
          · subst hi
            have := c5 i hmem
            simp [List.mem_filter] at this
          · exact c3 i hi hmem
        · intro j hj
          have hj1 : j ∉ rest := fun hh => hj (List.mem_cons_of_mem _ hh)
          obtain ⟨f1, f2, f3, f4, f5, f6⟩ := c4 j hj1
          rw [remove_node_node_of] at f1 f2 f3 f4 f5 f6
          refine ⟨f1, f2, ?_, f4, f5, f6⟩
          intro hcal
          exact f3 (by simp [hcal])
        · intro j hj
          have := c5 j hj
          simp at this
          exact this.1
    · -- the body is absent
      have hsf : (st.node_of nid).saved_tree = false := by
        cases hb : (st.node_of nid).saved_tree with
        | false => rfl
        | true => exact absurd hb hs
      by_cases hf : (st.node_of nid).local_info.finalized = true
      · -- finalized without a body: reset, then kept
        have hA : (((st.node_of nid).local_info.finalized &&
            !(st.node_of nid).saved_tree) = true) := by simp [hf, hsf]
        have hreset := reset_node_unit_ok st nid (H0 nid)
        obtain ⟨st2, hok2, c1, c2, c3, c4, c5⟩ :=
          ih (upd_node (cgraph_node_remove_callees (upd_node st nid reset_memset) nid) nid
              fun n => { n with next_needed := false }) hndR
            (sweep_hyps_upd _ nid (sweep_hyps_reset st nid hsf ⟨H0, H1, H2⟩))
        refine ⟨st2, ?_, ?_, ?_, ?_, ?_, ?_⟩
        · simp only [cgraph_finalize_unit_reclaim]
          rw [if_pos hA, hreset, except_ok_bind]
          rw [if_neg (by simp [remove_callees_node_of, upd_node, reset_memset, hsf])]
          rw [if_neg (by simp [remove_callees_node_of, upd_node, reset_memset])]
          rw [if_neg (by simp [remove_callees_node_of, upd_node, reset_memset])]
          exact hok2
        · intro i hi hfz hsv
          rcases List.mem_cons.mp hi with hi | hi
          · subst hi
            obtain ⟨f1, f2, f3, -, -, -⟩ := c4 i hnid_rest
            refine ⟨?_, ?_, ?_, ?_⟩
            · rw [f1]
              simp [upd_node, remove_callees_node_of, reset_memset]
            · rw [f2]
              simp [upd_node, remove_callees_node_of, reset_memset]
            · rw [f2]
              simp [upd_node, remove_callees_node_of, reset_memset]
            · refine f3 ?_
              simp [upd_node, remove_callees_node_of, reset_memset]
          · have hne : i ≠ nid := fun hh => hnid_rest (hh ▸ hi)
            refine c1 i hi ?_ ?_ <;>
              rw [upd_node_other _ _ _ _ hne, remove_callees_node_of,
                upd_node_other _ _ _ _ hne] <;> assumption
        · intro i hi hrc hsv
          rcases List.mem_cons.mp hi with hi | hi
          · subst hi
            exact absurd hsv (by simp [hsf])
          · have hne : i ≠ nid := fun hh => hnid_rest (hh ▸ hi)
            refine c2 i hi ?_ ?_ <;>
              rw [upd_node_other _ _ _ _ hne, remove_callees_node_of,
                upd_node_other _ _ _ _ hne] <;> assumption
        · intro i hi hmem
          rcases List.mem_cons.mp hi with hi | hi
          · subst hi
            obtain ⟨f1, f2, -, -, -, -⟩ := c4 i hnid_rest
            rw [f1, f2]
            simp [upd_node, remove_callees_node_of, reset_memset]
          · exact c3 i hi hmem
        · intro j hj
          have hj1 : j ∉ rest := fun hh => hj (List.mem_cons_of_mem _ hh)
          have hj2 : j ≠ nid := fun hh => hj (hh ▸ List.mem_cons_self nid rest)
          obtain ⟨f1, f2, f3, f4, f5, f6⟩ := c4 j hj1
          rw [upd_node_other _ _ _ _ hj2, remove_callees_node_of,
            upd_node_other _ _ _ _ hj2] at f1 f2 f3 f4 f5 f6
          refine ⟨f1, f2, ?_, f4, f5, f6⟩
          intro hcal
          exact f3 (by simp [hcal])
        · intro j hj
          have := c5 j hj
          simpa using this
      · -- neither finalized nor with a body: kept, asserts pass
        have hff : (st.node_of nid).local_info.finalized = false := by
          cases hb : (st.node_of nid).local_info.finalized with
          | false => rfl
          | true => exact absurd hb hf
        have haf : (st.node_of nid).analyzed = false := by
          cases hb : (st.node_of nid).analyzed with
          | false => rfl
          | true => exact absurd (H2 nid hb) (by simp [hff])
        have hAF : (st.node_of nid).analyzed = (st.node_of nid).local_info.finalized := by
          rw [haf, hff]
        obtain ⟨st2, hok2, c1, c2, c3, c4, c5⟩ :=
          ih (upd_node st nid fun n => { n with next_needed := false }) hndR
            (sweep_hyps_upd st nid ⟨H0, H1, H2⟩)
        refine ⟨st2, ?_, ?_, ?_, ?_, ?_, ?_⟩
        · simp only [cgraph_finalize_unit_reclaim]
          rw [if_neg (by simp [hff]), except_pure_bind]
          rw [if_neg (by simp [hsf])]
          rw [if_neg (by simp [upd_node, hsf, hff])]
          rw [if_neg (by simp [upd_node, hAF])]
          exact hok2
        · intro i hi hfz hsv
          rcases List.mem_cons.mp hi with hi | hi
          · subst hi
            exact absurd hfz (by simp [hff])
          · have hne : i ≠ nid := fun hh => hnid_rest (hh ▸ hi)
            exact c1 i hi (by rwa [upd_node_other _ _ _ _ hne])
              (by rwa [upd_node_other _ _ _ _ hne])
        · intro i hi hrc hsv
          rcases List.mem_cons.mp hi with hi | hi
          · subst hi
            exact absurd hsv (by simp [hsf])
          · have hne : i ≠ nid := fun hh => hnid_rest (hh ▸ hi)
            exact c2 i hi (by rwa [upd_node_other _ _ _ _ hne])
              (by rwa [upd_node_other _ _ _ _ hne])
        · intro i hi hmem
          rcases List.mem_cons.mp hi with hi | hi
          · subst hi
            obtain ⟨f1, f2, -, -, -, -⟩ := c4 i hnid_rest
            rw [f1, f2, upd_node_same]
            exact hAF
          · exact c3 i hi hmem
        · intro j hj
          have hj1 : j ∉ rest := fun hh => hj (List.mem_cons_of_mem _ hh)
          have hj2 : j ≠ nid := fun hh => hj (hh ▸ List.mem_cons_self nid rest)
          obtain ⟨f1, f2, f3, f4, f5, f6⟩ := c4 j hj1
          rw [upd_node_other _ _ _ _ hj2] at f1 f2 f3 f4 f5 f6
          exact ⟨f1, f2, f3, f4, f5, f6⟩
        · intro j hj
          have := c5 j hj
          simpa using this

/-- C3: at the end of the reclamation sweep of
cgraph_finalize_compilation_unit, over the nodes introduced since the
previous call, a finalized node whose body is absent has been reset; a node
that is not reachable but has a body has been removed from the graph; and
every remaining such node satisfies analyzed equal to finalized.  The
hypotheses are the facts holding after the reachable-worklist drain: output
flags are unset, every reachable node with a body was analyzed, and analyzed
nodes are finalized. -/
theorem finalize_unit_reclaim_spec (ids : List Nat) (st : unit_state)
    (hnd : ids.Nodup)
    (H0 : ∀ i, (st.node_of i).output = false)
    (H1 : ∀ i, (st.node_of i).reachable = true → (st.node_of i).saved_tree = true →
      (st.node_of i).analyzed = true)
    (H2 : ∀ i, (st.node_of i).analyzed = true → (st.node_of i).local_info.finalized = true) :
    ∃ st2, cgraph_finalize_unit_reclaim ids st = Except.ok st2 ∧
      (∀ nid ∈ ids, (st.node_of nid).local_info.finalized = true →
        (st.node_of nid).saved_tree = false →
        ((st2.node_of nid).analyzed = false ∧
          (st2.node_of nid).local_info.finalized = false ∧
          (st2.node_of nid).local_info.redefined_extern_inline = true ∧
          (st2.node_of nid).callees = [])) ∧
      (∀ nid ∈ ids, (st.node_of nid).reachable = false →
        (st.node_of nid).saved_tree = true → nid ∉ st2.node_ids) ∧
      (∀ nid ∈ ids, nid ∈ st2.node_ids →
        (st2.node_of nid).analyzed = (st2.node_of nid).local_info.finalized) := by
  obtain ⟨st2, hok, c1, c2, c3, -, -⟩ := reclaim_loop_ok ids st hnd ⟨H0, H1, H2⟩
  exact ⟨st2, hok, c1, c2, c3⟩

theorem finalize_unit_reclaim_spec_witness :
    [5, 6].Nodup ∧
    ∃ st2, cgraph_finalize_unit_reclaim [5, 6] st_C3 = Except.ok st2 ∧
      (st2.node_of 5).analyzed = false ∧
      (st2.node_of 5).local_info.finalized = false ∧
      (st2.node_of 5).local_info.redefined_extern_inline = true ∧
      (st2.node_of 5).callees = [] ∧
      6 ∉ st2.node_ids := by
  refine ⟨by decide, ?_⟩
  obtain ⟨st2, hok, c1, c2, -⟩ := finalize_unit_reclaim_spec [5, 6] st_C3 (by decide)
    (fun i => by by_cases hi : i = 6 <;> simp [st_C3, base_state, hi])
    (fun i h1 h2 => by
      by_cases hi : i = 6 <;> simp [st_C3, base_state, hi])
    (fun i h => by by_cases hi : i = 6 <;> simp [st_C3, base_state, hi])
  obtain ⟨q1, q2, q3, q4⟩ := c1 5 (by decide) rfl rfl
  exact ⟨st2, hok, q1, q2, q3, q4, c2 6 (by decide) rfl rfl⟩

/-
Claim C2: the reachable-worklist drain.
-/

theorem marks_only_refl (st : unit_state) : marks_only st st :=
  ⟨fun _ => rfl, fun _ => rfl, fun _ h => h⟩

theorem marks_only_trans (s1 s2 s3 : unit_state)
    (h12 : marks_only s1 s2) (h23 : marks_only s2 s3) : marks_only s1 s3 :=
  ⟨fun j => (h23.1 j).trans (h12.1 j), fun j => (h23.2.1 j).trans (h12.2.1 j),
    fun j h => h23.2.2 j (h12.2.2 j h)⟩

theorem mark_reachable_marks (st : unit_state) (i : Nat) :
    marks_only st (cgraph_mark_reachable_node st i) := by
  refine ⟨?_, ?_, ?_⟩ <;> intro j <;>
    simp only [cgraph_mark_reachable_node, intern_node_of] <;> split
  · simp
  · by_cases hj : j = i <;> simp [upd_node, hj]
  · simp
  · by_cases hj : j = i <;> simp [upd_node, hj]
  · intro h
    simp [h]
  · intro h
    by_cases hj : j = i <;> simp [upd_node, hj, h]

theorem varpool_mark_node_of (st : unit_state) (i : Nat) :
    (cgraph_varpool_mark_needed_node st i).node_of = st.node_of := by
  unfold cgraph_varpool_mark_needed_node
  split <;> rfl

theorem varpool_mark_marks (st : unit_state) (i : Nat) :
    marks_only st (cgraph_varpool_mark_needed_node st i) :=
  ⟨fun j => by rw [varpool_mark_node_of], fun j => by rw [varpool_mark_node_of],
    fun j h => by rwa [varpool_mark_node_of]⟩

theorem mark_needed_marks (st : unit_state) (i : Nat) :
    marks_only st (cgraph_mark_needed_node st i) := by
  unfold cgraph_mark_needed_node
  refine marks_only_trans st
    (upd_node (cgraph_intern_node st i) i fun n => { n with needed := true }) _
    ⟨?_, ?_, ?_⟩ (mark_reachable_marks _ _) <;> intro j
  · by_cases hj : j = i <;> simp [upd_node, hj]
  · by_cases hj : j = i <;> simp [upd_node, hj]
  · intro h
    by_cases hj : j = i <;> simp [upd_node, hj] <;> simpa [hj] using h

theorem record_reference_marks (fu : Bool) (t : tree) (st : unit_state) :
    (record_reference no_lang_hooks fu t st).ret = none ∧
    marks_only st (record_reference no_lang_hooks fu t st).st := by
  unfold record_reference
  repeat' split
  all_goals
    first
      | exact ⟨rfl, varpool_mark_marks _ _⟩
      | exact ⟨rfl, mark_needed_marks _ _⟩
      | exact ⟨rfl, marks_only_refl _⟩

theorem walk_tree_list_marks (fu : Bool) :
    ∀ (n : Nat) (l : List tree) (st : unit_state), sizeOf l ≤ n →
      (walk_tree_list (record_reference no_lang_hooks fu) l st).2 = none ∧
      marks_only st (walk_tree_list (record_reference no_lang_hooks fu) l st).1 := by
  intro n
  induction n using Nat.strong_induction_on with
  | _ n ih =>
    intro l st h
    cases l with
    | nil =>
      refine ⟨by simp only [walk_tree_list], ?_⟩
      simp only [walk_tree_list]
      exact marks_only_refl st
    | cons t ts =>
      have hops : sizeOf t.ops < sizeOf (t :: ts) := by
        cases t
        simp only [List.cons.sizeOf_spec, tree.ops, tree.mk.sizeOf_spec]
        omega
      have hts : sizeOf ts < sizeOf (t :: ts) := by
        simp only [List.cons.sizeOf_spec]
        omega
      simp only [walk_tree_list]
      rcases hE : record_reference no_lang_hooks fu t st with ⟨ret, ws, rst⟩
      obtain ⟨hr, hm⟩ := record_reference_marks fu t st
      rw [hE] at hr hm
      have hr2 : ret = none := hr
      have hm2 : marks_only st rst := hm
      subst hr2
      cases hw : ws with
      | true =>
        obtain ⟨ha, hb⟩ :=
          ih (sizeOf t.ops) (Nat.lt_of_lt_of_le hops h) t.ops rst (Nat.le_refl _)
        rcases hW : walk_tree_list (record_reference no_lang_hooks fu) t.ops rst
          with ⟨ws2, o⟩
        rw [hW] at ha hb
        have ha2 : o = none := ha
        have hb2 : marks_only rst ws2 := hb
        subst ha2
        obtain ⟨hc, hd⟩ :=
          ih (sizeOf ts) (Nat.lt_of_lt_of_le hts h) ts ws2 (Nat.le_refl _)
        exact ⟨hc, marks_only_trans _ _ _ (marks_only_trans _ _ _ hm2 hb2) hd⟩
      | false =>
        obtain ⟨hc, hd⟩ :=
          ih (sizeOf ts) (Nat.lt_of_lt_of_le hts h) ts rst (Nat.le_refl _)
        exact ⟨hc, marks_only_trans _ _ _ hm2 hd⟩

theorem varpool_drain_marks (fu : Bool) :
    ∀ (vfuel : Nat) (st : unit_state) (changed : Bool) (st2 : unit_state) (c : Bool),
      cgraph_varpool_analyze_pending_decls no_lang_hooks fu vfuel st changed =
        some (st2, c) →
      marks_only st st2 ∧ st2.varpool_unanalyzed = [] := by
  intro vfuel
  induction vfuel with
  | zero =>
    intro st changed st2 c h
    simp only [cgraph_varpool_analyze_pending_decls] at h
    split at h
    next hemp =>
      injection h with h2
      injection h2 with ha hb
      subst ha
      exact ⟨marks_only_refl st, by simpa using hemp⟩
    next => exact Option.noConfusion h
  | succ m ih =>
    intro st changed st2 c h
    simp only [cgraph_varpool_analyze_pending_decls] at h
    split at h
    next hemp =>
      injection h with h2
      injection h2 with ha hb
      subst ha
      exact ⟨marks_only_refl st, hemp⟩
    next v rest hv =>
      have hm1 : marks_only st { st with
          varpool_unanalyzed := rest
          var_of := fun j => if j = v then { st.var_of j with analyzed := true }
            else st.var_of j } :=
        ⟨fun _ => rfl, fun _ => rfl, fun _ hh => hh⟩
      split at h
      next t hini =>
        obtain ⟨hw1, hw2⟩ := walk_tree_list_marks fu (sizeOf [t]) [t] _ (Nat.le_refl _)
        obtain ⟨hrec, hemp⟩ := ih _ _ _ _ h
        exact ⟨marks_only_trans _ _ _ (marks_only_trans _ _ _ hm1 hw2) hrec, hemp⟩
      next hini =>
        obtain ⟨hrec, hemp⟩ := ih _ _ _ _ h
        exact ⟨marks_only_trans _ _ _ hm1 hrec, hemp⟩

theorem reset_node_queue (fu : Bool) (st : unit_state) (nid : Nat) (st2 : unit_state)
    (hok : cgraph_reset_node fu st nid = Except.ok st2) :
    st2.nodes_queue = st.nodes_queue := by
  unfold cgraph_reset_node at hok
  split at hok
  · exact Except.noConfusion hok
  · cases fu with
    | true =>
      simp only [Bool.not_true, Bool.false_eq_true, if_false, Bool.and_false] at hok
      injection hok with h
      subst h
      simp
    | false =>
      simp only [Bool.not_false, if_true, Bool.and_true] at hok
      injection hok with h
      subst h
      split
      · split
        · simp [(foldl_remove_facts _ _).1]
        · simp [(foldl_remove_facts _ _).1]
      · simp [(foldl_remove_facts _ _).1]

theorem analyze_function_analyzed (O : analysis_oracles) (st : unit_state) (nid : Nat)
    (st2 : unit_state) (hok : cgraph_analyze_function O st nid = Except.ok st2) :
    (st2.node_of nid).analyzed = true := by
  unfold cgraph_analyze_function at hok
  obtain ⟨node2, hn2, hok⟩ := except_bind_ok _ _ _ hok
  injection hok with h
  subst h
  simp [upd_node]

theorem fold_mark_reachable (es : List cgraph_edge) :
    ∀ (s : unit_state),
      marks_only s (es.foldl
        (fun s e =>
          if !(s.node_of e.callee).reachable then cgraph_mark_reachable_node s e.callee
          else s) s) ∧
      (∀ e ∈ es, ((es.foldl
        (fun s e =>
          if !(s.node_of e.callee).reachable then cgraph_mark_reachable_node s e.callee
          else s) s).node_of e.callee).reachable = true) := by
  induction es with
  | nil => exact fun s => ⟨marks_only_refl s, by simp⟩
  | cons e es ih =>
    intro s
    rw [List.foldl_cons]
    by_cases hr : (s.node_of e.callee).reachable = true
    · rw [if_neg (by simp [hr])]
      obtain ⟨ihm, ihr⟩ := ih s
      refine ⟨ihm, ?_⟩
      intro e2 he2
      rcases List.mem_cons.mp he2 with he2 | he2
      · subst he2
        exact ihm.2.2 _ hr
      · exact ihr e2 he2
    · rw [if_pos (by simp [Bool.not_eq_true] at hr; simp [hr])]
      obtain ⟨ihm, ihr⟩ := ih (cgraph_mark_reachable_node s e.callee)
      have hstep := mark_reachable_marks s e.callee
      refine ⟨marks_only_trans _ _ _ hstep ihm, ?_⟩
      intro e2 he2
      rcases List.mem_cons.mp he2 with he2 | he2
      · subst he2
        exact ihm.2.2 _ (mark_reachable_reachable s e2.callee)
      · exact ihr e2 he2

theorem finalize_unit_step_empty (O : analysis_oracles) (LH : lang_hooks_callgraph)
    (fu : Bool) (vfuel : Nat) (st : unit_state) (h : st.nodes_queue = []) :
    cgraph_finalize_unit_step O LH fu vfuel st = Except.ok st := by
  unfold cgraph_finalize_unit_step
  split
  · rfl
  next nid rest heq => rw [h] at heq; exact List.noConfusion heq

theorem drain_empties (O : analysis_oracles) (LH : lang_hooks_callgraph)
    (fu : Bool) (vfuel : Nat) :
    ∀ (fuel : Nat) (st st2 : unit_state),
      cgraph_finalize_unit_drain O LH fu vfuel fuel st = Except.ok st2 →
      st2.nodes_queue = [] := by
  intro fuel
  induction fuel with
  | zero =>
    intro st st2 h
    unfold cgraph_finalize_unit_drain at h
    split at h
    next hemp =>
      injection h with h2
      subst h2
      simpa using hemp
    next => exact Except.noConfusion h
  | succ m ih =>
    intro st st2 h
    unfold cgraph_finalize_unit_drain at h
    split at h
    next heq =>
      injection h with h2
      subst h2
      exact heq
    next heq =>
      obtain ⟨stm, hstep, hrest⟩ := except_bind_ok _ _ _ h
      exact ih _ _ hrest

/-- C2: in whole-unit mode the reachable-worklist drain of
cgraph_finalize_compilation_unit pops the front node and clears its worklist
link; if the saved body is gone the node is only reset and the rest of the
queue is untouched; otherwise the loop asserts the node is unanalyzed and
reachable (raising the assertion failure when not), and on success the node
has been analyzed, every callee of its freshly built edges is reachable, and
the pending-variable queue has been drained; the drain itself runs until the
queue is empty. -/
theorem finalize_unit_drain_spec (O : analysis_oracles) (vfuel : Nat)
    (st : unit_state) (nid : Nat) (rest : List Nat)
    (hq : st.nodes_queue = nid :: rest) :
    ((st.node_of nid).saved_tree = false →
      cgraph_finalize_unit_step O no_lang_hooks true vfuel st =
        cgraph_reset_node true
          (upd_node { st with nodes_queue := rest } nid
            fun n => { n with next_needed := false }) nid ∧
      ∀ st2, cgraph_finalize_unit_step O no_lang_hooks true vfuel st = Except.ok st2 →
        st2.nodes_queue = rest) ∧
    ((st.node_of nid).saved_tree = true →
      (((st.node_of nid).analyzed = true ∨ (st.node_of nid).reachable = false) →
        cgraph_finalize_unit_step O no_lang_hooks true vfuel st =
          Except.error "gcc_assert failed: queued node analyzed or unreachable") ∧
      (∀ st2, cgraph_finalize_unit_step O no_lang_hooks true vfuel st = Except.ok st2 →
        (st2.node_of nid).analyzed = true ∧
        (∀ e ∈ (st2.node_of nid).callees, (st2.node_of e.callee).reachable = true) ∧
        st2.varpool_unanalyzed = [])) ∧
    (∀ fuel st2,
      cgraph_finalize_unit_drain O no_lang_hooks true vfuel fuel st = Except.ok st2 →
      st2.nodes_queue = []) := by
  refine ⟨?_, ?_, fun fuel st2 h => drain_empties O no_lang_hooks true vfuel fuel st st2 h⟩
  · intro hs
    constructor
    · unfold cgraph_finalize_unit_step
      split
      next heq => rw [hq] at heq; exact List.noConfusion heq
      next nid2 rest2 heq =>
        rw [hq] at heq
        injection heq with e1 e2
        subst e1
        subst e2
        rw [if_pos (by simp [upd_node, hs])]
    · intro st2 h2
      rw [(by
        unfold cgraph_finalize_unit_step
        split
        next heq => rw [hq] at heq; exact List.noConfusion heq
        next nid2 rest2 heq =>
          rw [hq] at heq
          injection heq with e1 e2
          subst e1
          subst e2
          rw [if_pos (by simp [upd_node, hs])] :
        cgraph_finalize_unit_step O no_lang_hooks true vfuel st =
          cgraph_reset_node true
            (upd_node { st with nodes_queue := rest } nid
              fun n => { n with next_needed := false }) nid)] at h2
      have := reset_node_queue _ _ _ _ h2
      simpa using this
  · intro hs
    constructor
    · intro hbad
      unfold cgraph_finalize_unit_step
      split
      next heq => rw [hq] at heq; exact List.noConfusion heq
      next nid2 rest2 heq =>
        rw [hq] at heq
        injection heq with e1 e2
        subst e1
        subst e2
        rw [if_neg (by simp [upd_node, hs])]
        rw [if_pos (by
          rcases hbad with hb | hb <;> simp [upd_node, hb])]
        rfl
    · intro st2 h2
      unfold cgraph_finalize_unit_step at h2
      split at h2
      next heq => rw [hq] at heq; exact List.noConfusion heq
      next nid2 rest2 heq =>
        rw [hq] at heq
        injection heq with e1 e2
        subst e1
        subst e2
        rw [if_neg (by simp [upd_node, hs])] at h2
        split at h2
        next => exact Except.noConfusion h2
        next hpass =>
          obtain ⟨sta, hana, h2⟩ := except_bind_ok _ _ _ h2
          simp only [] at h2
          split at h2
          next stv hb hvar =>
            injection h2 with h3
            subst h3
            obtain ⟨hdm, hdemp⟩ := varpool_drain_marks true vfuel _ _ _ _ hvar
            obtain ⟨hfm, hfr⟩ := fold_mark_reachable ((sta.node_of nid).callees) sta
            have hana2 := analyze_function_analyzed _ _ _ _ hana
            refine ⟨?_, ?_, hdemp⟩
            · rw [hdm.1 nid, hfm.1 nid]
              exact hana2
            · intro e he
              have hcal : (stv.node_of nid).callees = (sta.node_of nid).callees := by
                rw [hdm.2.1 nid, hfm.2.1 nid]
              rw [hcal] at he
              exact hdm.2.2 _ (hfr e he)
          next => exact Except.noConfusion h2

theorem finalize_unit_drain_spec_witness :
    st_C2.nodes_queue = 3 :: [] ∧
    (st_C2.node_of 3).saved_tree = true ∧
    cgraph_finalize_unit_step O_C2 no_lang_hooks true 1 st_C2 = Except.ok st_C2r ∧
    (st_C2r.node_of 3).analyzed = true ∧
    st_C2r.varpool_unanalyzed = [] ∧
    cgraph_finalize_unit_drain O_C2 no_lang_hooks true 1 2 st_C2 = Except.ok st_C2d ∧
    st_C2d.nodes_queue = [] := by
  have h := finalize_unit_drain_spec O_C2 1 st_C2 3 [] rfl
  have hok : cgraph_finalize_unit_step O_C2 no_lang_hooks true 1 st_C2 =
      Except.ok st_C2r := rfl
  have hokd : cgraph_finalize_unit_drain O_C2 no_lang_hooks true 1 2 st_C2 =
      Except.ok st_C2d := rfl
  obtain ⟨ha, hb, hc⟩ := (h.2.1 rfl).2 st_C2r hok
  exact ⟨rfl, rfl, hok, ha, hc, hokd, h.2.2 2 st_C2d hokd⟩

end Cgraph
